import Mathlib

/-!
Verification of the fsutil directory walker
(`vendor/github.com/tonistiigi/fsutil/walker.go`).

The development shallowly embeds, on the Go side:

* `filepath.Match` (Go standard library shell-glob matcher used by the
  walker via `filepath.Match(p, path)`),
* `patternPrefixes` and `noPossiblePrefixMatch` (the literal-prefix index),
* the walk callback of `Walk` (include stage, exclude stage, record
  construction, cancellation check, accept hook, sink delivery),
* the traversal engine `filepath.Walk` (lexical per-directory order,
  `SkipDir` handling, error propagation),
* `StatInfo.ModTime` (`time.Unix(n/1e9, n%1e9)`).

Paths are modelled as slash-separated strings (the walker runs with
`filepath.Separator = '/'`; `runtime.GOOS` is taken to be `"linux"`, so
`filepath.ToSlash` is the identity and the Windows permission branch is
dead code, though it is still embedded).  File systems are modelled as
finite trees; an entry can also be an error entry, standing for a child
whose `lstat` fails during the walk (`filepath.Walk` then calls the
callback with the error and no file info).
-/

namespace Fsutil

/-! ## Strings -/

/-- `strings.HasPrefix(s, pre)`. -/
def strHasPre (s pre : String) : Bool := pre.data.isPrefixOf s.data

/-! ## Go `filepath.Match`

Faithful embedding of the Go standard library matcher (the version
vendored alongside this code base): `scanChunk`, `matchChunk`, `getEsc`
and the main `Match` loop, on lists of characters.  `MRes.err` stands for
`ErrBadPattern`. -/

inductive MRes where
  | err : MRes
  | nomatch : MRes
  | ok (rest : List Char) : MRes
deriving DecidableEq, Repr

/-- Go `getEsc`: read one (possibly escaped) character of a `[...]` class. -/
def getEsc (chunk : List Char) : Option (Char × List Char) :=
  match chunk with
  | [] => none
  | c :: cs =>
    if c = '-' ∨ c = ']' then none
    else if c = '\\' then
      match cs with
      | [] => none
      | d :: ds => if ds.isEmpty then none else some (d, ds)
    else if cs.isEmpty then none else some (c, cs)

/-- The range-parsing loop of the `[` case of Go `matchChunk`.
Returns `none` for `ErrBadPattern`, otherwise whether the character
matched one of the ranges, together with the chunk remaining after the
closing `]`.  The loop consumes at least one character of the chunk per
iteration, so it is run with the explicit recursion budget `fuel`
(instantiated in `rangeLoop` with a sufficient value); `fuel = 0` is
unreachable there. -/
def rangeLoopF (r : Char) : Nat → Bool → Nat → List Char → Option (Bool × List Char)
  | 0, _, _, _ => none
  | fuel + 1, matched, nrange, chunk =>
    if chunk.head? = some ']' ∧ 0 < nrange then some (matched, chunk.tail)
    else
      match getEsc chunk with
      | none => none
      | some (lo, ch1) =>
        if ch1.head? = some '-' then
          match getEsc ch1.tail with
          | none => none
          | some (hi, ch2) =>
            rangeLoopF r fuel (matched || (lo ≤ r && r ≤ hi)) (nrange + 1) ch2
        else
          rangeLoopF r fuel (matched || (lo ≤ r && r ≤ lo)) (nrange + 1) ch1

/-- The range loop at its sufficient budget: every iteration strictly
consumes the chunk, so `chunk.length + 1` steps always suffice. -/
def rangeLoop (r : Char) (matched : Bool) (nrange : Nat) (chunk : List Char) :
    Option (Bool × List Char) :=
  rangeLoopF r (chunk.length + 1) matched nrange chunk

/-- Go `matchChunk`: match the non-star chunk at the start of `s`;
`.ok rest` returns the unmatched remainder of `s`.  Each step consumes at
least one chunk character, so the loop runs on the explicit budget `fuel`
(instantiated in `matchChunk` with a sufficient value). -/
def matchChunkF : Nat → List Char → List Char → MRes
  | 0, _, _ => .err
  | fuel + 1, chunk, s =>
    match chunk with
    | [] => .ok s
    | c :: ch =>
      match s with
      | [] => .nomatch
      | sc :: s1 =>
        if c = '[' then
          if ch.head? = some '^' then
            match rangeLoop sc false 0 ch.tail with
            | none => .err
            | some (m, rest) => if m = true then .nomatch else matchChunkF fuel rest s1
          else
            match rangeLoop sc false 0 ch with
            | none => .err
            | some (m, rest) => if m = false then .nomatch else matchChunkF fuel rest s1
        else if c = '?' then
          if sc = '/' then .nomatch else matchChunkF fuel ch s1
        else if c = '\\' then
          match ch with
          | [] => .err
          | d :: ch2 => if d = sc then matchChunkF fuel ch2 s1 else .nomatch
        else
          if c = sc then matchChunkF fuel ch s1 else .nomatch

/-- Go `matchChunk` at its sufficient budget (the range loop returns a
strictly shorter chunk, so `chunk.length + 1` steps always suffice). -/
def matchChunk (chunk s : List Char) : MRes :=
  matchChunkF (chunk.length + 1) chunk s

/-- The chunk-scanning loop of Go `scanChunk` (after leading stars are
consumed): walks to the next unbracketed `*`, skipping escaped characters. -/
def scanBody (l : List Char) (inrange : Bool) : List Char × List Char :=
  match l with
  | [] => ([], [])
  | c :: cs =>
    if c = '*' ∧ inrange = false then ([], c :: cs)
    else if c = '\\' then
      match cs with
      | [] => ([c], [])
      | d :: ds =>
        let r := scanBody ds inrange
        (c :: d :: r.1, r.2)
    else
      let inr2 := if c = '[' then true else if c = ']' then false else inrange
      let r := scanBody cs inr2
      (c :: r.1, r.2)

/-- Go `scanChunk`: strip leading `*`s, then cut the pattern at the next
unbracketed `*`. -/
def scanChunk (p : List Char) : Bool × List Char × List Char :=
  (p.head? = some '*', scanBody (p.dropWhile (fun c => c = '*')) false)

theorem scanBody_snd_length (l : List Char) (b : Bool) : (scanBody l b).2.length ≤ l.length := by
  induction l, b using scanBody.induct with
  | case1 b => simp [scanBody]
  | case2 b d ds hstar =>
    rw [scanBody.eq_def]
    simp [hstar]
  | case3 b hstar =>
    rw [scanBody.eq_def]
    simp [hstar]
  | case4 b d ds hstar ih =>
    rw [scanBody.eq_def]
    simp only [if_neg hstar]
    simp only [List.length_cons, reduceIte]
    omega
  | case5 b d ds hstar hesc inr2 ih =>
    rw [scanBody.eq_def]
    simp only [if_neg hstar, if_neg hesc]
    simp only [List.length_cons]
    have hz : (if d = '[' then true else if d = ']' then false else b) = inr2 := rfl
    rw [hz]
    omega

theorem scanChunk_append (l : List Char) (b : Bool) :
    (scanBody l b).1 ++ (scanBody l b).2 = l := by
  induction l, b using scanBody.induct with
  | case1 b => simp [scanBody]
  | case2 b d ds hstar =>
    rw [scanBody.eq_def]
    simp [hstar]
  | case3 b hstar =>
    rw [scanBody.eq_def]
    simp [hstar]
  | case4 b d ds hstar ih =>
    rw [scanBody.eq_def]
    simp only [if_neg hstar, reduceIte]
    simpa using ih
  | case5 b d ds hstar hesc inr2 ih =>
    rw [scanBody.eq_def]
    simp only [if_neg hstar, if_neg hesc]
    have hz : (if d = '[' then true else if d = ']' then false else b) = inr2 := rfl
    rw [hz]
    simpa using ih

theorem scanBody_snd_lt (c : Char) (cs : List Char) (hc : c ≠ '*') :
    (scanBody (c :: cs) false).2.length < (c :: cs).length := by
  rw [scanBody.eq_def]
  split
  · rename_i h
    exact absurd h (by simp)
  · rename_i d ds h
    injection h with h1 h2
    subst h1
    subst h2
    split
    · rename_i hcond
      exact absurd hcond.1 hc
    · split
      · cases cs with
        | nil => simp
        | cons d2 ds2 =>
          have := scanBody_snd_length ds2 false
          dsimp only
          simp only [List.length_cons]
          omega
      · have := scanBody_snd_length cs (if c = '[' then true else if c = ']' then false else false)
        dsimp only
        simp only [List.length_cons]
        omega

theorem scanChunk_rest_lt {p : List Char} (hp : p ≠ []) :
    (scanChunk p).2.2.length < p.length := by
  unfold scanChunk
  cases p with
  | nil => exact absurd rfl hp
  | cons c cs =>
    by_cases hc : c = '*'
    · subst hc
      simp only [List.dropWhile]
      have h1 := scanBody_snd_length (cs.dropWhile (fun c => c = '*')) false
      have h2 : (cs.dropWhile (fun c => c = '*')).length ≤ cs.length :=
        (cs.dropWhile_sublist _).length_le
      simp only [decide_True]
      simp only [List.length_cons]
      omega
    · have hdw : (c :: cs).dropWhile (fun c => c = '*') = c :: cs := by
        simp [List.dropWhile, hc]
      rw [hdw]
      exact scanBody_snd_lt c cs hc

mutual

/-- Go `filepath.Match`, main pattern loop (`none` is `ErrBadPattern`).
Every recursive call either shortens the remaining pattern or the
remaining name, so the loop runs on the explicit budget `fuel`
(instantiated in `goMatchAux` with a sufficient value). -/
def goMatchF : Nat → List Char → List Char → Option Bool
  | 0, _, _ => none
  | fuel + 1, pattern, name =>
    if pattern.isEmpty then some name.isEmpty
    else
      let sc := scanChunk pattern
      let star := sc.1
      let chunk := sc.2.1
      let rest := sc.2.2
      if star && chunk.isEmpty then
        -- a trailing star matches the rest of the name unless it has a separator
        some (!name.contains '/')
      else
        match matchChunk chunk name with
        | .ok t =>
          if t.isEmpty || !rest.isEmpty then goMatchF fuel rest t
          else if star then starLoopF fuel chunk rest name
          else some false
        | .err => none
        | .nomatch =>
          if star then starLoopF fuel chunk rest name
          else some false

/-- The star-backtracking loop of Go `filepath.Match`: try to match the
chunk at every later position of the name, not crossing a separator. -/
def starLoopF : Nat → List Char → List Char → List Char → Option Bool
  | 0, _, _, _ => none
  | fuel + 1, chunk, rest, name =>
    match name with
    | [] => some false
    | c :: name1 =>
      if c = '/' then some false
      else
        match matchChunk chunk name1 with
        | .ok t =>
          if rest.isEmpty && !t.isEmpty then starLoopF fuel chunk rest name1
          else goMatchF fuel rest t
        | .err => none
        | .nomatch => starLoopF fuel chunk rest name1

end

/-- The main match loop at its sufficient budget: each step of
`goMatchF` strictly shrinks the pattern (`scanChunk` consumes at least
one character) and each step of `starLoopF` strictly shrinks the name,
so `2 * pattern.length + name.length + 1` steps always suffice. -/
def goMatchAux (pattern name : List Char) : Option Bool :=
  goMatchF (2 * pattern.length + name.length + 1) pattern name

/-- Go `filepath.Match(pattern, name)`; `none` is `ErrBadPattern`. -/
def goMatch (pattern name : String) : Option Bool :=
  goMatchAux pattern.data name.data

/-- The walker's use of the matcher: `m, _ := filepath.Match(p, path)`
(a pattern error counts as no match). -/
def globMatch (pattern name : String) : Bool :=
  (goMatch pattern name).getD false

/-! ## The literal-prefix index (`patternPrefixes`, `noPossiblePrefixMatch`) -/

/-- A wildcard character of `filepath.Match` patterns, exactly the set
scanned for by `patternPrefixes` in walker.go. -/
def isWildChar (c : Char) : Bool := c = '*' || c = '?' || c = '[' || c = '\\'

/-- walker.go `patternPrefixes`: for each pattern, the substring before
its first wildcard character (the whole pattern when it has none). -/
def patternPrefixes (patterns : List String) : List String :=
  patterns.map fun p => ⟨p.data.takeWhile (fun c => !isWildChar c)⟩

/-- walker.go `noPossiblePrefixMatch(p, pfxs)`: `true` when no index
entry is prefix-comparable with `p` (each entry is compared against `p`
truncated to the entry's length). -/
def noPossiblePrefixMatch (p : String) (pfxs : List String) : Bool :=
  pfxs.all fun pfx =>
    let chk := if pfx.data.length < p.data.length then p.data.take pfx.data.length else p.data
    !(chk.isPrefixOf pfx.data)

/-! ## The exclude-pattern engine

The walker delegates exclude matching to `fileutils.PatternMatcher` from
`github.com/docker/docker/pkg/fileutils`, which is not part of this
repository's source tree; only its call sites (`NewPatternMatcher`,
`Matches`, `Exclusions`, `Patterns`, `Pattern.Exclusion`,
`Pattern.String`) appear in walker.go. -/

/-- One parsed exclude pattern: its text with any leading `!` stripped,
and whether it is a negation (re-inclusion) pattern. -/
structure ExPattern where
  cleanedPattern : String
  exclusion : Bool
deriving DecidableEq, Repr

/-- Modelled from the spec: parsing one exclude pattern of the deny-list
(the `NewPatternMatcher` constructor, which lives outside this
repository).  A leading `!` marks a negation pattern; `Pattern.String`
returns the text without the `!`. -/
def pmParseOne (s : String) : ExPattern :=
  if strHasPre s "!" then ⟨s.drop 1, true⟩ else ⟨s, false⟩

/-- Modelled from the spec: the parsed deny-list, in order. -/
def pmParse (l : List String) : List ExPattern := l.map pmParseOne

/-- `PatternMatcher.Exclusions()`: whether any pattern is a negation. -/
def pmExclusions (pats : List ExPattern) : Bool := pats.any (·.exclusion)

/-- Modelled from the spec: `PatternMatcher.Matches(path)` (defined
outside this repository).  Patterns are tested in order with shell-glob
semantics; a matching ordinary pattern marks the path excluded, a
matching negation pattern re-includes it — the last matching pattern
wins, per the spec: "a path matching any exclude pattern is excluded,
unless ... re-included by a negation" / "a negation pattern reverses a
prior exclusion for paths it matches". -/
def pmMatches (pats : List ExPattern) (path : String) : Bool :=
  pats.foldl
    (fun matched pat =>
      if globMatch pat.cleanedPattern path then !pat.exclusion else matched)
    false

/-! ## Data model: records, file trees, walker state -/

/-- The portable record delivered to the sink (`Stat` of the fsutil
package; only the fields walker.go itself fills in are modelled). -/
structure Stat where
  Path : String
  Mode : Nat
  Size_ : Int
  ModTime : Int
deriving DecidableEq, Repr

/-- Raw per-entry metadata as obtained from `os.FileInfo`. -/
structure FileMeta where
  mode : Nat
  size : Int
  modTime : Int
deriving DecidableEq, Repr

/-- A filesystem error observed while lstat-ing a directory child:
`notExist` is the `os.IsNotExist` class (a vanished entry), `ioErr` any
other failure. -/
inductive FSErr where
  | notExist
  | ioErr
deriving DecidableEq, Repr

/-- A model filesystem subtree.  `errEntry` stands for a directory child
that is listed but whose `lstat` fails (`filepath.Walk` then invokes the
callback with the error and a nil file info). -/
inductive FSEntry where
  | file (name : String) (meta : FileMeta)
  | dir (name : String) (meta : FileMeta) (children : List FSEntry)
  | errEntry (name : String) (e : FSErr)

def FSEntry.entryName : FSEntry → String
  | .file n _ => n
  | .dir n _ _ => n
  | .errEntry n _ => n

def FSEntry.isDirE : FSEntry → Bool
  | .dir _ _ _ => true
  | _ => false

def FSEntry.metaOf : FSEntry → FileMeta
  | .file _ m => m
  | .dir _ m _ => m
  | .errEntry _ _ => ⟨0, 0, 0⟩

def FSEntry.childrenOf : FSEntry → List FSEntry
  | .dir _ _ cs => cs
  | _ => []

/-- `WalkOpt` of walker.go (`Map` is the accept/reject hook). -/
structure WalkOpt where
  IncludePatterns : Option (List String)
  ExcludePatterns : Option (List String)
  Map : Option (Stat → Bool)

/-- An error returned by the walk callback or the traversal:
`filepath.SkipDir`, the context's cancellation error, or a wrapped
filesystem error carrying the offending path. -/
inductive WErr where
  | skipDir
  | canceled
  | ioErr (path : String)
deriving DecidableEq, Repr

/-- The mutable state the walk callback closes over, together with the
stream of records delivered to the sink so far. -/
structure WalkState where
  lastIncludedDir : String
  checks : Nat
  emitted : List Stat
deriving Repr

/-- One callback invocation, recorded for the traversal trace: the
(root-relative) path it was invoked at, whether the entry is a
directory, and the lstat error when there is one. -/
structure TraceEntry where
  path : String
  isDir : Bool
  fsErr : Option FSErr
deriving DecidableEq, Repr

/-- The per-walk configuration: the cancellation context (`doneAfter k`
means the context is observed as done from the `k`-th check point on),
the options, and the derived exclude matcher and include-prefix index. -/
structure WalkCfg where
  doneAfter : Option Nat
  opt : Option WalkOpt
  pm : Option (List ExPattern)
  prefixes : List String

/-- Whether `ctx.Done()` is observed at check point `i`; a context, once
done, stays done. -/
def ctxDone (doneAfter : Option Nat) (i : Nat) : Bool :=
  match doneAfter with
  | none => false
  | some k => decide (k ≤ i)

/-- `runtime.GOOS` of the modelled platform. -/
def runtimeGOOS : String := "linux"

/-- Building the `Stat` record (walker.go lines 131-160): raw metadata
copied into the record, plus the Windows permission normalization branch
(dead under the modelled `runtime.GOOS`).  `setUnixOpt` and `loadXattr`
are enrichment hooks defined outside this repository; modelled from the
spec as always-succeeding and as not touching the fields above. -/
def mkStat (path : String) (m : FileMeta) : Stat :=
  let stat : Stat := ⟨path, m.mode, m.size, m.modTime⟩
  if runtimeGOOS = "windows" then
    let permPart := (stat.Mode &&& 511) ||| 73
    let permPart2 := permPart &&& 493
    let noPermPart := stat.Mode &&& (4294967295 - 511)
    { stat with Mode := noPermPart ||| permPart2 }
  else stat

/-! ## The walk callback (walker.go lines 46-176)

The callback is split along its control flow into three stages; Go's
`goto passedFilter` target corresponds to `emitStage`. -/

/-- The tail of the callback from the `passedFilter` label on: build the
record, check cancellation, apply the accept hook `Map`, deliver to the
sink.  The cancellation check increments the per-walk check counter. -/
def emitStage (cfg : WalkCfg) (m : FileMeta) (path : String) (st : WalkState) :
    Option WErr × WalkState :=
  let stat := mkStat path m
  if ctxDone cfg.doneAfter st.checks then
    (some .canceled, { st with checks := st.checks + 1 })
  else
    let st1 := { st with checks := st.checks + 1 }
    let accept :=
      match cfg.opt with
      | some o =>
        match o.Map with
        | some f => f stat
        | none => true
      | none => true
    if accept then (none, { st1 with emitted := st1.emitted ++ [stat] })
    else (none, st1)

/-- The exclude stage (walker.go lines 100-125): consult
`pm.Matches`; a matching file is skipped; a matching directory is pruned
unless the deny-list has negation patterns and some negation pattern's
text, extended with a separator, lies under the directory (then control
jumps to `passedFilter`). -/
def excludeStage (cfg : WalkCfg) (m : FileMeta) (isDir : Bool) (path : String)
    (st : WalkState) : Option WErr × WalkState :=
  match cfg.pm with
  | none => emitStage cfg m path st
  | some pats =>
    if pmMatches pats path then
      if isDir then
        if !pmExclusions pats then (some .skipDir, st)
        else if pats.any
            (fun pat => pat.exclusion && strHasPre (pat.cleanedPattern ++ "/") (path ++ "/")) then
          emitStage cfg m path st
        else (some .skipDir, st)
      else (none, st)
    else emitStage cfg m path st

/-- The walk callback for an entry that lstat-ed successfully
(walker.go lines 46-176): skip the root, run the include stage
(remembered last included directory, per-pattern glob tests, literal
prefix index), then the exclude stage, then `passedFilter`. -/
def walkFn (cfg : WalkCfg) (isDir : Bool) (m : FileMeta) (path : String) (st : WalkState) :
    Option WErr × WalkState :=
  if path = "." then (none, st)
  else
    match cfg.opt with
    | none => excludeStage cfg m isDir path st
    | some o =>
      match o.IncludePatterns with
      | none => excludeStage cfg m isDir path st
      | some pats =>
        if st.lastIncludedDir != "" && strHasPre path (st.lastIncludedDir ++ "/") then
          excludeStage cfg m isDir path st
        else
          let m2 := pats.any fun p => globMatch p path
          let st1 := if m2 && isDir then { st with lastIncludedDir := path } else st
          if m2 then excludeStage cfg m isDir path st1
          else if !isDir then (none, st1)
          else if noPossiblePrefixMatch path cfg.prefixes then (some .skipDir, st1)
          else excludeStage cfg m isDir path st1

/-- The walk callback for an entry whose lstat failed (walker.go lines
47-52): a vanished entry yields `filepath.SkipDir`, any other error is
returned (wrapped with the path) and aborts the walk. -/
def walkFnErr (e : FSErr) (path : String) : Option WErr :=
  match e with
  | .notExist => some .skipDir
  | .ioErr => some (.ioErr path)

/-! ## The traversal engine (`filepath.Walk`)

`filepath.Walk` visits the root and then, per directory, its children by
lexically sorted name.  Directory listing order is modelled by keeping
each directory's children name-sorted: `Walk` sorts the whole input tree
once up front (`sortTree`), which is observably the same as sorting each
listing when it is read.  Relative paths are computed as `filepath.Rel`
would produce them (the root is `"."`, children extend their parent's
path with a separator). -/

/-- `filepath.Rel`-style join of a parent's root-relative path and a
child name. -/
def joinRel (d n : String) : String := if d = "." then n else d ++ "/" ++ n

/-- Lexicographic comparison of names, as `sort.Strings` orders them
(byte order on UTF-8 agrees with code-point order). -/
def charListLe : List Char → List Char → Bool
  | [], _ => true
  | _ :: _, [] => false
  | c :: cs, d :: ds => if c < d then true else if d < c then false else charListLe cs ds

/-- Name order on directory entries. -/
def nameLe (a b : FSEntry) : Bool := charListLe a.entryName.data b.entryName.data

/-- Insert an entry into a name-sorted listing. -/
def insertByName (e : FSEntry) : List FSEntry → List FSEntry
  | [] => [e]
  | x :: xs => if nameLe e x then e :: x :: xs else x :: insertByName e xs

/-- Children of one directory in Go's listing order (`readDirNames`
sorts the names). -/
def sortByName : List FSEntry → List FSEntry
  | [] => []
  | x :: xs => insertByName x (sortByName xs)

mutual

/-- Sort every directory listing of the tree by name. -/
def sortTree : FSEntry → FSEntry
  | .file n m => .file n m
  | .errEntry n e => .errEntry n e
  | .dir n m cs => .dir n m (sortByName (sortTreeL cs))

def sortTreeL : List FSEntry → List FSEntry
  | [] => []
  | c :: rest => sortTree c :: sortTreeL rest

end

mutual

/-- Go `filepath.walk(path, info, walkFn)` on an already-sorted tree:
invoke the callback, honour `SkipDir` on directories, then walk the
children.  Alongside the walker state it threads the trace of callback
invocations. -/
def walkEntry (cfg : WalkCfg) (path : String) (e : FSEntry) (st : WalkState)
    (tr : List TraceEntry) : Option WErr × WalkState × List TraceEntry :=
  let tr0 := tr ++ [⟨path, e.isDirE, none⟩]
  match walkFn cfg e.isDirE e.metaOf path st with
  | (some err, st1) =>
    if e.isDirE && err == .skipDir then (none, st1, tr0) else (some err, st1, tr0)
  | (none, st1) =>
    match e with
    | .dir _ _ cs => walkList cfg path cs st1 tr0
    | _ => (none, st1, tr0)

/-- The loop over one directory's (sorted) children: lstat failures are
routed to the error callback (`SkipDir` from it skips just that entry),
successful entries are walked recursively; a `SkipDir` bubbling out of a
non-directory child aborts the rest of the listing, per
`filepath.Walk`'s contract. -/
def walkList (cfg : WalkCfg) (dirPath : String) (cs : List FSEntry) (st : WalkState)
    (tr : List TraceEntry) : Option WErr × WalkState × List TraceEntry :=
  match cs with
  | [] => (none, st, tr)
  | c :: rest =>
    match c with
    | .errEntry n fe =>
      let cpath := joinRel dirPath n
      let tr1 := tr ++ [⟨cpath, false, some fe⟩]
      match walkFnErr fe cpath with
      | some .skipDir => walkList cfg dirPath rest st tr1
      | none => walkList cfg dirPath rest st tr1
      | some err => (some err, st, tr1)
    | _ =>
      match walkEntry cfg (joinRel dirPath c.entryName) c st tr with
      | (some err, st1, tr1) =>
        if !c.isDirE || err != .skipDir then (some err, st1, tr1)
        else walkList cfg dirPath rest st1 tr1
      | (none, st1, tr1) => walkList cfg dirPath rest st1 tr1

end

/-- The walker state at entry. -/
def initState : WalkState := ⟨"", 0, []⟩

/-- `Walk(ctx, p, opt, fn)` of walker.go, over a model tree standing for
the resolved root directory's contents.  Root resolution is assumed to
have succeeded (the claims under verification all concern walks over a
resolved root); the exclude matcher and, on first use, the include
prefix index are built exactly as in the source.  The sink `fn` is
modelled as unconditionally accepting each record, so the emitted list
of the final state is the stream of records delivered to it. -/
def Walk (doneAfter : Option Nat) (opt : Option WalkOpt) (rootChildren : List FSEntry) :
    Option WErr × WalkState × List TraceEntry :=
  let pm :=
    match opt with
    | some o =>
      match o.ExcludePatterns with
      | some l => some (pmParse l)
      | none => none
    | none => none
  let prefixes :=
    match opt with
    | some o =>
      match o.IncludePatterns with
      | some l => patternPrefixes l
      | none => []
    | none => []
  walkEntry ⟨doneAfter, opt, pm, prefixes⟩ "." (sortTree (.dir "" ⟨0, 0, 0⟩ rootChildren))
    initState []

/-- The error returned by a walk. -/
def walkErr (r : Option WErr × WalkState × List TraceEntry) : Option WErr := r.1

/-- The records delivered to the sink, in order. -/
def walkEmitted (r : Option WErr × WalkState × List TraceEntry) : List Stat := r.2.1.emitted

/-- The paths of the records delivered to the sink, in order. -/
def walkEmittedPaths (r : Option WErr × WalkState × List TraceEntry) : List String :=
  (walkEmitted r).map (·.Path)

/-- The trace of callback invocations of a walk. -/
def walkTrace (r : Option WErr × WalkState × List TraceEntry) : List TraceEntry := r.2.2

/-! ## `StatInfo.ModTime` (walker.go lines 192-194)

`StatInfo.ModTime` reconstructs a `time.Time` from the stored
nanosecond count as `time.Unix(n/1e9, n%1e9)`.  Go's `/` and `%` on
`int64` truncate toward zero (`Int.tdiv` / `Int.tmod`). -/

/-- Go `time.Unix(sec, nsec)`: normalize the nanosecond field into
`[0, 1e9)`, borrowing from the seconds.  The result's total nanosecond
count is `sec * 1e9 + nsec`. -/
def goTimeUnix (sec nsec : Int) : Int × Int :=
  if nsec < 0 ∨ 1000000000 ≤ nsec then
    let n := nsec.tdiv 1000000000
    let sec2 := sec + n
    let nsec2 := nsec - n * 1000000000
    if nsec2 < 0 then (sec2 - 1, nsec2 + 1000000000) else (sec2, nsec2)
  else (sec, nsec)

/-- `StatInfo.ModTime()` as the `(seconds, nanoseconds)` pair of the
reconstructed time: `time.Unix(s.Stat.ModTime/1e9, s.Stat.ModTime%1e9)`. -/
def statInfoModTime (modTime : Int) : Int × Int :=
  goTimeUnix (modTime.tdiv 1000000000) (modTime.tmod 1000000000)

/-! ## Specification-side descriptions used by the claims -/

mutual

/-- The pre-order listing of the paths of an (already name-sorted)
subtree rooted at path `p`: the entry's own path first, then its
children's subtrees in listing order. -/
def preorderP (p : String) (e : FSEntry) : List String :=
  match e with
  | .file _ _ => [p]
  | .errEntry _ _ => [p]
  | .dir _ _ cs => p :: preorderL p cs

def preorderL (dirPath : String) : List FSEntry → List String
  | [] => []
  | c :: rest => preorderP (joinRel dirPath c.entryName) c ++ preorderL dirPath rest

end

/-- The lexical pre-order listing of every path strictly under the root:
sort every directory listing by name, then list the paths in pre-order. -/
def preorderRoot (cs : List FSEntry) : List String :=
  preorderL "." (sortByName (sortTreeL cs))

/-- A well-formed filesystem name: nonempty, free of separators, and not
one of the special directory entries. -/
def validNameB (n : String) : Bool :=
  n != "" && !(n.data.contains '/') && n != "." && n != ".."

mutual

/-- Well-formedness of a model subtree: every name is a valid filesystem
name and sibling names are distinct, as an on-disk tree guarantees. -/
def wfB : FSEntry → Bool
  | .file n _ => validNameB n
  | .errEntry n _ => validNameB n
  | .dir n _ cs => validNameB n && wfListB cs

def wfListB : List FSEntry → Bool
  | [] => true
  | c :: rest =>
    wfB c && rest.all (fun x => x.entryName != c.entryName) && wfListB rest

end

mutual

/-- No lstat error anywhere in the subtree. -/
def errFreeB : FSEntry → Bool
  | .file _ _ => true
  | .errEntry _ _ => false
  | .dir _ _ cs => errFreeL cs

def errFreeL : List FSEntry → Bool
  | [] => true
  | c :: rest => errFreeB c && errFreeL rest

end

mutual

/-- Every lstat error in the subtree, if any, is of the vanished-entry
(`notExist`) kind. -/
def vanishOnlyB : FSEntry → Bool
  | .file _ _ => true
  | .errEntry _ e => e == .notExist
  | .dir _ _ cs => vanishOnlyL cs

def vanishOnlyL : List FSEntry → Bool
  | [] => true
  | c :: rest => vanishOnlyB c && vanishOnlyL rest

end

mutual

/-- Remove the vanished entries from a tree (the subtree an undisturbed
walk of the same directory would have seen). -/
def pruneVanished : FSEntry → Option FSEntry
  | .file n m => some (.file n m)
  | .errEntry _ _ => none
  | .dir n m cs => some (.dir n m (pruneVanishedL cs))

def pruneVanishedL : List FSEntry → List FSEntry
  | [] => []
  | c :: rest =>
    match pruneVanished c with
    | some c2 => c2 :: pruneVanishedL rest
    | none => pruneVanishedL rest

end

/-! ## Predicates used to state the claims -/

/-- The invariant of the include stage's memo: `lastIncludedDir` is
either unset or the path of a directory that matched an include pattern
directly. -/
def lidOK (pats : List String) (st : WalkState) : Prop :=
  st.lastIncludedDir = "" ∨ ∃ pat ∈ pats, globMatch pat st.lastIncludedDir = true

/-- The ways a path can pass the include stage: it matches a pattern
directly; or it is a proper descendant of a directory that matched a
pattern; or the literal-prefix index does not rule it out (some
pattern's literal prefix is prefix-comparable with it). -/
def includeOK (pats prefixes : List String) (p : String) : Prop :=
  (∃ pat ∈ pats, globMatch pat p = true) ∨
  (∃ d : String, (∃ pat ∈ pats, globMatch pat d = true) ∧ strHasPre p (d ++ "/") = true) ∨
  noPossiblePrefixMatch p prefixes = false

/-! ## Concrete walks used as test inputs -/

/-- A tree with `a/b.txt`, `a/c/d.txt` and `e.txt` (the include-pattern
scenario of the spec). -/
def exTreeInc : List FSEntry :=
  [.dir "a" ⟨1, 0, 0⟩ [.file "b.txt" ⟨2, 0, 0⟩, .dir "c" ⟨3, 0, 0⟩ [.file "d.txt" ⟨4, 0, 0⟩]],
   .file "e.txt" ⟨5, 0, 0⟩]

/-- A tree with directory `a` holding file `b`. -/
def exTreeAB : List FSEntry := [.dir "a" ⟨1, 0, 0⟩ [.file "b" ⟨2, 0, 0⟩]]

/-- The exclude-with-negation scenario of the spec: `secrets/key` and
`secrets/readme.txt` under `secrets`. -/
def exTreeSecrets : List FSEntry :=
  [.dir "secrets" ⟨1, 0, 0⟩ [.file "key" ⟨2, 0, 0⟩, .file "readme.txt" ⟨3, 0, 0⟩]]

/-- A tree with `x/y/z`. -/
def exTreeXYZ : List FSEntry :=
  [.dir "x" ⟨1, 0, 0⟩ [.dir "y" ⟨2, 0, 0⟩ [.file "z" ⟨3, 0, 0⟩]]]

/-- A root-relative path in good form: it starts with a valid filesystem
name, followed by nothing or by a separator and more. -/
def goodRel (p : String) : Prop :=
  ∃ (n : String) (rest : List Char), validNameB n = true ∧ p.data = n.data ++ rest ∧
    (rest = [] ∨ rest.head? = some '/')

/-- The exclude stage with the final record-construction step abstracted
out: `.inl r` is a result produced before `passedFilter` is reached,
`.inr st1` means control reaches `passedFilter` with state `st1`.  Only
the branching of `excludeStage` is kept; it never consults the
cancellation context. -/
def exCore (pm : Option (List ExPattern)) (isDir : Bool) (path : String)
    (st : WalkState) : (Option WErr × WalkState) ⊕ WalkState :=
  match pm with
  | none => .inr st
  | some pats =>
    if pmMatches pats path then
      if isDir then
        if !pmExclusions pats then .inl (some .skipDir, st)
        else if pats.any
            (fun pat => pat.exclusion && strHasPre (pat.cleanedPattern ++ "/") (path ++ "/")) then
          .inr st
        else .inl (some .skipDir, st)
      else .inl (none, st)
    else .inr st

/-- The walk callback with the record-construction step abstracted out,
mirroring `walkFn`: `.inl r` is a result decided by the filters alone,
`.inr st1` means control reaches `passedFilter` with state `st1`. -/
def walkCore (o : Option WalkOpt) (pm : Option (List ExPattern)) (pfx : List String)
    (isDir : Bool) (path : String) (st : WalkState) :
    (Option WErr × WalkState) ⊕ WalkState :=
  if path = "." then .inl (none, st)
  else
    match o with
    | none => exCore pm isDir path st
    | some o =>
      match o.IncludePatterns with
      | none => exCore pm isDir path st
      | some pats =>
        if st.lastIncludedDir != "" && strHasPre path (st.lastIncludedDir ++ "/") then
          exCore pm isDir path st
        else
          let m2 := pats.any fun p => globMatch p path
          let st1 := if m2 && isDir then { st with lastIncludedDir := path } else st
          if m2 then exCore pm isDir path st1
          else if !isDir then (.inl (none, st1))
          else if noPossiblePrefixMatch path pfx then .inl (some .skipDir, st1)
          else exCore pm isDir path st1

/-- A configuration with no include patterns, no exclude patterns and no
accept hook: either no options at all, or options whose three fields are
all unset. -/
def plainOpt : Option WalkOpt → Prop
  | none => True
  | some o => o.IncludePatterns = none ∧ o.ExcludePatterns = none ∧ o.Map = none

/-- `q` lies in the subtree rooted at path `base`: it is `base` itself
or extends it with a separator. -/
def extOf (base q : String) : Prop :=
  q = base ∨ (base.data ++ ['/']) <+: q.data

/-- How the walker state evolves along a run: the delivered stream only
grows (by appending), the check counter only grows, and the stream grows
by at most one record per check. -/
def growsTo (st st' : WalkState) : Prop :=
  st.emitted <+: st'.emitted ∧ st.checks ≤ st'.checks ∧
  st'.emitted.length + st.checks ≤ st.emitted.length + st'.checks

/-- How a run against a cancelled-after-`k`-checks context (`r2`)
relates to the same run against a never-cancelled context (`r1`), when
started from state `st0`: either cancellation is never observed and the
runs agree, or `r2` stops with `context canceled` at check `k + 1`,
having delivered a prefix of `r1`'s stream of length at most
`st0.emitted.length + (k - st0.checks)`. -/
def cancelRel (k : Nat) (st0 : WalkState)
    (r1 r2 : Option WErr × WalkState × List TraceEntry) : Prop :=
  (r1.2.1.checks ≤ k ∧ r2 = r1) ∨
  (k < r1.2.1.checks ∧ r2.1 = some WErr.canceled ∧ r2.2.1.checks = k + 1 ∧
    r2.2.1.emitted <+: r1.2.1.emitted ∧
    r2.2.1.emitted.length + st0.checks ≤ st0.emitted.length + k)

/-! ## C10: modification-time round-trip -/

theorem tmod_bounds (n : Int) :
    -1000000000 < n.tmod 1000000000 ∧ n.tmod 1000000000 < 1000000000 := by
  have h2 : n.tmod 1000000000 < 1000000000 := Int.tmod_lt_of_pos n (by norm_num)
  refine ⟨?_, h2⟩
  rcases le_or_lt 0 n with hn | hn
  · have := Int.tmod_nonneg (a := n) 1000000000 hn
    omega
  · have hodd : n.tmod 1000000000 = -((-n).tmod 1000000000) := by
      rw [Int.tmod_def, Int.tmod_def, Int.neg_tdiv]
      ring
    have h4 : (-n).tmod 1000000000 < 1000000000 := Int.tmod_lt_of_pos (-n) (by norm_num)
    omega

/-- C10: modification times round-trip through the record at nanosecond
resolution: for every `int64` nanosecond value `n` stored in
`Stat.ModTime`, the reconstruction `time.Unix(n/1e9, n%1e9)` performed
by `StatInfo.ModTime` yields a time whose total nanoseconds
(`sec * 1e9 + nsec`) equal `n`, for negative as well as non-negative
`n`. -/
theorem modTime_roundtrip (n : Int) :
    (statInfoModTime n).1 * 1000000000 + (statInfoModTime n).2 = n := by
  have h1 : (1000000000 : Int) * n.tdiv 1000000000 + n.tmod 1000000000 = n :=
    Int.tdiv_add_tmod n 1000000000
  obtain ⟨h3, h2⟩ := tmod_bounds n
  unfold statInfoModTime goTimeUnix
  split
  · rename_i hcond
    have hr : n.tmod 1000000000 < 0 := by omega
    have h5 : (n.tmod 1000000000).tdiv 1000000000 = 0 := by
      have hz : n.tmod 1000000000 = -(-(n.tmod 1000000000)) := by ring
      rw [hz, Int.neg_tdiv, Int.tdiv_eq_zero_of_lt (by omega) (by omega), neg_zero]
    rw [h5]
    dsimp only
    rw [if_pos (by omega : n.tmod 1000000000 - 0 * 1000000000 < 0)]
    dsimp only
    omega
  · dsimp only
    omega

/-! ## Behaviour of the callback stages -/

theorem mkStat_Path (path : String) (m : FileMeta) : (mkStat path m).Path = path := by
  unfold mkStat
  split <;> rfl

theorem emitStage_lid (cfg : WalkCfg) (m : FileMeta) (path : String) (st : WalkState) :
    (emitStage cfg m path st).2.lastIncludedDir = st.lastIncludedDir := by
  unfold emitStage
  split
  · rfl
  · dsimp only
    split <;> rfl

theorem emitStage_emitted (cfg : WalkCfg) (m : FileMeta) (path : String) (st : WalkState) :
    (emitStage cfg m path st).2.emitted = st.emitted ∨
    (emitStage cfg m path st).2.emitted = st.emitted ++ [mkStat path m] := by
  unfold emitStage
  split
  · exact Or.inl rfl
  · dsimp only
    split
    · exact Or.inr rfl
    · exact Or.inl rfl

theorem excludeStage_lid (cfg : WalkCfg) (m : FileMeta) (d : Bool) (path : String)
    (st : WalkState) :
    (excludeStage cfg m d path st).2.lastIncludedDir = st.lastIncludedDir := by
  unfold excludeStage
  split
  · exact emitStage_lid ..
  · split
    · split
      · split
        · rfl
        · split
          · exact emitStage_lid ..
          · rfl
      · rfl
    · exact emitStage_lid ..

theorem excludeStage_emitted (cfg : WalkCfg) (m : FileMeta) (d : Bool) (path : String)
    (st : WalkState) :
    (excludeStage cfg m d path st).2.emitted = st.emitted ∨
    (excludeStage cfg m d path st).2.emitted = st.emitted ++ [mkStat path m] := by
  unfold excludeStage
  split
  · exact emitStage_emitted ..
  · split
    · split
      · split
        · exact Or.inl rfl
        · split
          · exact emitStage_emitted ..
          · exact Or.inl rfl
      · exact Or.inl rfl
    · exact emitStage_emitted ..

theorem walkFn_lid (cfg : WalkCfg) (d : Bool) (m : FileMeta) (path : String) (st : WalkState) :
    (walkFn cfg d m path st).2.lastIncludedDir = st.lastIncludedDir ∨
    ((walkFn cfg d m path st).2.lastIncludedDir = path ∧ d = true ∧
      ∃ o pats, cfg.opt = some o ∧ o.IncludePatterns = some pats ∧
        pats.any (fun p => globMatch p path) = true) := by
  unfold walkFn
  split
  · exact Or.inl rfl
  · split
    · exact Or.inl (excludeStage_lid ..)
    · rename_i o ho
      split
      · exact Or.inl (excludeStage_lid ..)
      · rename_i pats hpats
        split
        · exact Or.inl (excludeStage_lid ..)
        · cases hm : pats.any (fun p => globMatch p path) with
          | false =>
            simp only [hm, Bool.false_and, if_false, if_neg (by simp : ¬false = true)]
            split
            · exact Or.inl rfl
            · split
              · exact Or.inl rfl
              · exact Or.inl (excludeStage_lid ..)
          | true =>
            simp only [hm, Bool.true_and, if_pos rfl]
            cases d with
            | false =>
              simp only [Bool.false_eq_true, if_false]
              exact Or.inl (excludeStage_lid ..)
            | true =>
              simp only [if_true, reduceIte]
              refine Or.inr ⟨?_, by simp, o, pats, ho, hpats, hm⟩
              rw [excludeStage_lid]

theorem walkFn_emitted (cfg : WalkCfg) (d : Bool) (m : FileMeta) (path : String)
    (st : WalkState) :
    (walkFn cfg d m path st).2.emitted = st.emitted ∨
    (walkFn cfg d m path st).2.emitted = st.emitted ++ [mkStat path m] := by
  unfold walkFn
  split
  · exact Or.inl rfl
  · split
    · exact excludeStage_emitted ..
    · rename_i o ho
      split
      · exact excludeStage_emitted ..
      · rename_i pats hpats
        split
        · exact excludeStage_emitted ..
        · cases hm : pats.any (fun p => globMatch p path) with
          | false =>
            simp only [hm, Bool.false_and, if_false, if_neg (by simp : ¬false = true)]
            split
            · exact Or.inl rfl
            · split
              · exact Or.inl rfl
              · exact excludeStage_emitted ..
          | true =>
            simp only [hm, Bool.true_and, if_true, reduceIte]
            cases d with
            | false =>
              simp only [Bool.false_eq_true, if_false, reduceIte]
              exact excludeStage_emitted ..
            | true =>
              simp only [if_true, reduceIte]
              exact excludeStage_emitted ..

/-! ## C2: the include-stage closure property -/

theorem addition_ok {zs base : List Stat} {path : String} {m : FileMeta}
    (h : zs = base ∨ zs = base ++ [mkStat path m]) {P : String → Prop} (hp : P path) :
    ∀ s ∈ zs, s ∈ base ∨ P s.Path := by
  rcases h with h | h <;> subst h
  · exact fun s hs => Or.inl hs
  · intro s hs
    rcases List.mem_append.mp hs with hs | hs
    · exact Or.inl hs
    · simp only [List.mem_singleton] at hs
      subst hs
      rw [mkStat_Path]
      exact Or.inr hp

theorem walkFn_include (cfg : WalkCfg) (o : WalkOpt) (pats : List String)
    (ho : cfg.opt = some o) (hpats : o.IncludePatterns = some pats)
    (d : Bool) (m : FileMeta) (path : String) (st : WalkState) (hlid : lidOK pats st) :
    lidOK pats (walkFn cfg d m path st).2 ∧
    ∀ s ∈ (walkFn cfg d m path st).2.emitted,
      s ∈ st.emitted ∨ includeOK pats cfg.prefixes s.Path := by
  unfold walkFn
  split
  · exact ⟨hlid, fun s hs => Or.inl hs⟩
  · simp only [ho, hpats]
    split
    · rename_i hvia
      refine ⟨?_, ?_⟩
      · unfold lidOK at hlid ⊢
        rw [excludeStage_lid]
        exact hlid
      · refine addition_ok (excludeStage_emitted ..) ?_
        simp only [Bool.and_eq_true, bne_iff_ne, ne_eq] at hvia
        rcases hlid with h0 | ⟨pat, hpat, hmatch⟩
        · exact absurd h0 hvia.1
        · exact Or.inr (Or.inl ⟨st.lastIncludedDir, ⟨pat, hpat, hmatch⟩, hvia.2⟩)
    · cases hm : pats.any (fun p => globMatch p path) with
      | true =>
        simp only [hm, Bool.true_and, if_true, reduceIte]
        have hdir : ∃ pat ∈ pats, globMatch pat path = true := by
          simpa using List.any_eq_true.mp hm
        cases d with
        | false =>
          simp only [Bool.false_eq_true, if_false, reduceIte]
          refine ⟨?_, ?_⟩
          · unfold lidOK at hlid ⊢
            rw [excludeStage_lid]
            exact hlid
          · exact addition_ok (excludeStage_emitted ..) (Or.inl hdir)
        | true =>
          simp only [if_true, reduceIte]
          refine ⟨?_, ?_⟩
          · unfold lidOK
            rw [excludeStage_lid]
            exact Or.inr hdir
          · exact addition_ok (excludeStage_emitted ..) (Or.inl hdir)
      | false =>
        simp only [hm, Bool.false_and, if_false, if_neg (by simp : ¬false = true)]
        split
        · exact ⟨hlid, fun s hs => Or.inl hs⟩
        · split
          · exact ⟨hlid, fun s hs => Or.inl hs⟩
          · rename_i hnp
            refine ⟨?_, ?_⟩
            · unfold lidOK at hlid ⊢
              rw [excludeStage_lid]
              exact hlid
            · refine addition_ok (excludeStage_emitted ..) ?_
              refine Or.inr (Or.inr ?_)
              simpa using hnp

theorem chain_sub {α : Type} {P : α → Prop} {xs ys zs : List α}
    (h1 : ∀ s ∈ zs, s ∈ ys ∨ P s) (h2 : ∀ s ∈ ys, s ∈ xs ∨ P s) :
    ∀ s ∈ zs, s ∈ xs ∨ P s :=
  fun s hs => (h1 s hs).elim (fun h => h2 s h) Or.inr

mutual

theorem walkEntry_include (cfg : WalkCfg) (o : WalkOpt) (pats : List String)
    (ho : cfg.opt = some o) (hpats : o.IncludePatterns = some pats)
    (path : String) (e : FSEntry) (st : WalkState) (tr : List TraceEntry)
    (hlid : lidOK pats st) :
    lidOK pats (walkEntry cfg path e st tr).2.1 ∧
    ∀ s ∈ (walkEntry cfg path e st tr).2.1.emitted,
      s ∈ st.emitted ∨ includeOK pats cfg.prefixes s.Path := by
  have hfn := walkFn_include cfg o pats ho hpats e.isDirE e.metaOf path st hlid
  unfold walkEntry
  cases hw : walkFn cfg e.isDirE e.metaOf path st with
  | mk r st1 =>
    rw [hw] at hfn
    cases r with
    | some err =>
      dsimp only
      split
      · exact hfn
      · exact hfn
    | none =>
      dsimp only
      cases e with
      | file n m => exact hfn
      | errEntry n fe => exact hfn
      | dir n m cs =>
        have hrec := walkList_include cfg o pats ho hpats path cs st1
          (tr ++ [⟨path, (FSEntry.dir n m cs).isDirE, none⟩]) hfn.1
        exact ⟨hrec.1, chain_sub hrec.2 hfn.2⟩

theorem walkList_include (cfg : WalkCfg) (o : WalkOpt) (pats : List String)
    (ho : cfg.opt = some o) (hpats : o.IncludePatterns = some pats)
    (dirPath : String) (cs : List FSEntry) (st : WalkState) (tr : List TraceEntry)
    (hlid : lidOK pats st) :
    lidOK pats (walkList cfg dirPath cs st tr).2.1 ∧
    ∀ s ∈ (walkList cfg dirPath cs st tr).2.1.emitted,
      s ∈ st.emitted ∨ includeOK pats cfg.prefixes s.Path := by
  match cs with
  | [] => exact ⟨hlid, fun s hs => Or.inl hs⟩
  | c :: rest =>
    unfold walkList
    cases c with
    | errEntry n fe =>
      cases fe with
      | notExist =>
        exact walkList_include cfg o pats ho hpats dirPath rest st
          (tr ++ [⟨joinRel dirPath n, false, some .notExist⟩]) hlid
      | ioErr => exact ⟨hlid, fun s hs => Or.inl hs⟩
    | file n m =>
      have hE := walkEntry_include cfg o pats ho hpats (joinRel dirPath (FSEntry.file n m).entryName)
        (.file n m) st tr hlid
      cases hw : walkEntry cfg (joinRel dirPath (FSEntry.file n m).entryName) (.file n m) st tr with
      | mk r rest2 =>
        rw [hw] at hE
        cases r with
        | some err =>
          dsimp only
          split
          · exact hE
          · have hrec := walkList_include cfg o pats ho hpats dirPath rest rest2.1 rest2.2 hE.1
            exact ⟨hrec.1, chain_sub hrec.2 hE.2⟩
        | none =>
          dsimp only
          have hrec := walkList_include cfg o pats ho hpats dirPath rest rest2.1 rest2.2 hE.1
          exact ⟨hrec.1, chain_sub hrec.2 hE.2⟩
    | dir n m cs2 =>
      have hE := walkEntry_include cfg o pats ho hpats
        (joinRel dirPath (FSEntry.dir n m cs2).entryName) (.dir n m cs2) st tr hlid
      cases hw : walkEntry cfg (joinRel dirPath (FSEntry.dir n m cs2).entryName)
          (.dir n m cs2) st tr with
      | mk r rest2 =>
        rw [hw] at hE
        cases r with
        | some err =>
          dsimp only
          split
          · exact hE
          · have hrec := walkList_include cfg o pats ho hpats dirPath rest rest2.1 rest2.2 hE.1
            exact ⟨hrec.1, chain_sub hrec.2 hE.2⟩
        | none =>
          dsimp only
          have hrec := walkList_include cfg o pats ho hpats dirPath rest rest2.1 rest2.2 hE.1
          exact ⟨hrec.1, chain_sub hrec.2 hE.2⟩

end

theorem isPrefixOf_length {l1 l2 : List Char} (h : l1.isPrefixOf l2 = true) :
    l1.length ≤ l2.length := by
  induction l1 generalizing l2 with
  | nil => simp
  | cons a as ih =>
    cases l2 with
    | nil => simp [List.isPrefixOf] at h
    | cons b bs =>
      simp only [List.isPrefixOf, Bool.and_eq_true] at h
      simpa using ih h.2

theorem data_nil_iff (s : String) : s.data = [] ↔ s = "" := by
  constructor
  · intro h
    cases s with
    | mk data =>
      simp only at h
      rw [h]
  · intro h
    rw [h]

theorem strData_append (a b : String) : (a ++ b).data = a.data ++ b.data := by
  cases a with
  | mk xs =>
    cases b with
    | mk ys => rfl

theorem strHasPre_short {s pre : String} (h : s.data.length < pre.data.length) :
    strHasPre s pre = false := by
  unfold strHasPre
  cases hp : pre.data.isPrefixOf s.data with
  | false => rfl
  | true => exact absurd (isPrefixOf_length hp) (by omega)

theorem no_strict_ancestor_of_single {a : Char} (ha : a ≠ '/') (d : String) :
    strHasPre ⟨[a]⟩ (d ++ "/") = false := by
  by_cases hd : d = ""
  · subst hd
    unfold strHasPre
    simp [List.isPrefixOf]
    intro hc
    exact absurd hc.symm ha
  · apply strHasPre_short
    rw [strData_append]
    have : d.data ≠ [] := fun hn => hd ((data_nil_iff d).mp hn)
    cases hdd : d.data with
    | nil => exact absurd hdd this
    | cons c cs => simp

/-- C2, counterexample to the claim as stated: with the single include
pattern `a/b` over a tree holding `a/b`, the record for directory `a` is
delivered even though `a` matches no include pattern and is not a
descendant of any directory (so in particular not of a matching one):
the non-matching directory's own record is emitted, not suppressed. -/
theorem include_nonmatching_dir_emitted :
    walkEmittedPaths (Walk none (some ⟨some ["a/b"], none, none⟩) exTreeAB) = ["a", "a/b"] ∧
    (∀ pat ∈ ["a/b"], globMatch pat "a" = false) ∧
    (∀ d : String, strHasPre "a" (d ++ "/") = false) := by
  refine ⟨by decide, by decide, ?_⟩
  intro d
  exact no_strict_ancestor_of_single (by decide) d

/-- C2 (amended): for every walk configured with a non-empty
include-pattern list, every path delivered to the sink either matches
some include pattern directly, or is a proper descendant of a directory
whose path matched an include pattern, or is not ruled out by the
literal-prefix index (its path is prefix-comparable with some pattern's
literal prefix); a directory of the third kind is emitted itself, not
merely descended into. -/
theorem include_stage_closure (doneAfter : Option Nat) (o : WalkOpt) (pats : List String)
    (cs : List FSEntry) (hpats : o.IncludePatterns = some pats) :
    ∀ p ∈ walkEmittedPaths (Walk doneAfter (some o) cs),
      includeOK pats (patternPrefixes pats) p := by
  intro p hp
  unfold walkEmittedPaths walkEmitted Walk at hp
  simp only [hpats] at hp
  rcases List.mem_map.mp hp with ⟨s, hs, rfl⟩
  obtain ⟨-, h2⟩ := walkEntry_include
    ⟨doneAfter, some o,
      (match o.ExcludePatterns with
        | some l => some (pmParse l)
        | none => none),
      patternPrefixes pats⟩ o pats rfl hpats
    "." (sortTree (.dir "" ⟨0, 0, 0⟩ cs)) initState [] (Or.inl rfl)
  rcases h2 s hs with h | h
  · simp [initState] at h
  · exact h

/-- C2 witness: the spec's own include scenario, instantiating the
closure property at the delivered path `a/b.txt`. -/
theorem include_stage_closure_witness :
    includeOK ["a/*"] (patternPrefixes ["a/*"]) "a/b.txt" :=
  include_stage_closure none ⟨some ["a/*"], none, none⟩ ["a/*"] exTreeInc rfl "a/b.txt"
    (by decide)

/-! ## C4, C5: exclude patterns with negations -/

/-- C4, counterexample to the claim as stated: with exclude patterns
`a` and `!a/b`, directory `a` matches the exclude pattern and a negation
pattern lies under it; the claim says `a`'s own record is not emitted
(Skip) while the walk descends, but the walker emits the record for `a`
(control jumps to `passedFilter`), as the delivered stream shows; the
trace confirms the walk also descends into `a`. -/
theorem exclude_dir_negation_emitted_counterexample :
    pmExclusions (pmParse ["a", "!a/b"]) = true ∧
    pmMatches (pmParse ["a", "!a/b"]) "a" = true ∧
    walkEmittedPaths (Walk none (some ⟨none, some ["a", "!a/b"], none⟩) exTreeAB)
      = ["a", "a/b"] ∧
    walkTrace (Walk none (some ⟨none, some ["a", "!a/b"], none⟩) exTreeAB)
      = [⟨".", true, none⟩, ⟨"a", true, none⟩, ⟨"a/b", false, none⟩] := by
  decide

/-- C4 (amended): in a walk whose exclude set contains at least one
negation pattern (and with no include patterns and no accept hook
configured), the callback's decision for a non-root directory whose path
matches the exclude set is: if no negation pattern's text, extended with
a separator, lies under the directory's path, the whole subtree is
pruned (`SkipDir`) with nothing delivered; otherwise the directory
passes the filter entirely — its own record is delivered (when the
context is not yet cancelled) and the walk descends into it. -/
theorem exclude_dir_negation_decision (cfg : WalkCfg) (o : WalkOpt) (pats : List ExPattern)
    (m : FileMeta) (path : String) (st : WalkState)
    (ho : cfg.opt = some o) (hoi : o.IncludePatterns = none) (hom : o.Map = none)
    (hpm : cfg.pm = some pats) (hpath : path ≠ ".")
    (hm : pmMatches pats path = true) (hex : pmExclusions pats = true) :
    ((pats.any fun pat =>
        pat.exclusion && strHasPre (pat.cleanedPattern ++ "/") (path ++ "/")) = false →
      walkFn cfg true m path st = (some .skipDir, st)) ∧
    ((pats.any fun pat =>
        pat.exclusion && strHasPre (pat.cleanedPattern ++ "/") (path ++ "/")) = true →
      ctxDone cfg.doneAfter st.checks = false →
      walkFn cfg true m path st =
        (none, { st with checks := st.checks + 1,
                         emitted := st.emitted ++ [mkStat path m] })) := by
  unfold walkFn
  rw [if_neg hpath]
  simp only [ho, hoi]
  unfold excludeStage
  simp only [hpm, hm, if_pos rfl, hex, Bool.not_true, if_true, reduceIte,
    Bool.false_eq_true, if_false]
  constructor
  · intro hneg
    rw [hneg]
    simp
  · intro hneg hctx
    rw [hneg]
    simp only [if_true, reduceIte]
    unfold emitStage
    rw [hctx]
    simp only [Bool.false_eq_true, if_false, reduceIte, ho, hom]

/-- C4 witness: the decision theorem instantiated at directory `a` with
exclude set {`a`, `!a/b`} — the negation lies under `a`, so the record
for `a` is delivered. -/
theorem exclude_dir_negation_decision_witness :
    walkFn ⟨none, some ⟨none, some ["a", "!a/b"], none⟩, some (pmParse ["a", "!a/b"]), []⟩
        true ⟨1, 0, 0⟩ "a" initState =
      (none, { initState with checks := 1,
                              emitted := [mkStat "a" ⟨1, 0, 0⟩] }) := by
  have h := (exclude_dir_negation_decision
    ⟨none, some ⟨none, some ["a", "!a/b"], none⟩, some (pmParse ["a", "!a/b"]), []⟩
    ⟨none, some ["a", "!a/b"], none⟩ (pmParse ["a", "!a/b"]) ⟨1, 0, 0⟩ "a" initState
    rfl rfl rfl rfl (by decide) (by decide) (by decide)).2 (by decide) (by decide)
  exact h

theorem pmFold_stays_false (post : List ExPattern) (p : String)
    (hpost : ∀ q ∈ post, globMatch q.cleanedPattern p = true → q.exclusion = true) :
    post.foldl
      (fun matched pat =>
        if globMatch pat.cleanedPattern p then !pat.exclusion else matched) false = false := by
  induction post with
  | nil => rfl
  | cons q rest ih =>
    rw [List.foldl_cons]
    have hq : (if globMatch q.cleanedPattern p then !q.exclusion else false) = false := by
      cases hg : globMatch q.cleanedPattern p with
      | false => simp
      | true => simp [hpost q (by simp) hg]
    rw [hq]
    exact ih fun q2 hq2 => hpost q2 (by simp [hq2])

theorem pmMatches_late_negation (pre post : List ExPattern) (neg : ExPattern) (p : String)
    (hneg : neg.exclusion = true) (hm : globMatch neg.cleanedPattern p = true)
    (hpost : ∀ q ∈ post, globMatch q.cleanedPattern p = true → q.exclusion = true) :
    pmMatches (pre ++ neg :: post) p = false := by
  unfold pmMatches
  rw [List.foldl_append, List.foldl_cons]
  have hstep : (if globMatch neg.cleanedPattern p then !neg.exclusion else
      (pre.foldl
        (fun matched pat =>
          if globMatch pat.cleanedPattern p then !pat.exclusion else matched) false)) = false := by
    simp [hm, hneg]
  rw [hstep]
  exact pmFold_stays_false post p hpost

/-- C5, counterexample to the claim as stated: with exclude set
{`x/y`, `x/y/z`, `!x/*/z`}, the path `x/y/z` matches the base pattern
`x/y/z` and also the negation `x/*/z`, yet it is not delivered: the
directory `x/y` matches `x/y` and is pruned, because the negation's
pattern text `x/*/z/` does not literally extend `x/y/`, so the walk
never reaches `x/y/z`. -/
theorem exclude_negation_not_delivered_counterexample :
    pmExclusions (pmParse ["x/y", "x/y/z", "!x/*/z"]) = true ∧
    (pmParseOne "x/y/z").exclusion = false ∧
    globMatch "x/y/z" "x/y/z" = true ∧
    (pmParseOne "!x/*/z").exclusion = true ∧
    globMatch "x/*/z" "x/y/z" = true ∧
    walkEmittedPaths (Walk none (some ⟨none, some ["x/y", "x/y/z", "!x/*/z"], none⟩) exTreeXYZ)
      = ["x"] := by
  decide

/-- C5 (amended): a path that matches a base exclude pattern but also a
later negation pattern (with no later pattern re-excluding it) is not
dropped by the exclude filter: `Matches` reports it as not excluded, so
it is delivered whenever the walk reaches it — which happens in the
spec's scenario: with exclude `secrets/*` and negation
`!secrets/readme.txt` over a tree containing `secrets/key` and
`secrets/readme.txt`, the delivered set is exactly
{`secrets`, `secrets/readme.txt`} and `secrets/key` is skipped. -/
theorem exclude_negation_reinclusion :
    (∀ (pre post : List ExPattern) (neg : ExPattern) (p : String),
        neg.exclusion = true → globMatch neg.cleanedPattern p = true →
        (∀ q ∈ post, globMatch q.cleanedPattern p = true → q.exclusion = true) →
        pmMatches (pre ++ neg :: post) p = false) ∧
    walkEmittedPaths
        (Walk none (some ⟨none, some ["secrets/*", "!secrets/readme.txt"], none⟩) exTreeSecrets)
      = ["secrets", "secrets/readme.txt"] :=
  ⟨fun pre post neg p h1 h2 h3 => pmMatches_late_negation pre post neg p h1 h2 h3, by decide⟩

/-- C5 witness: the filter-level half of the theorem instantiated at the
spec's scenario patterns and path. -/
theorem exclude_negation_reinclusion_witness :
    pmMatches (pmParse ["secrets/*", "!secrets/readme.txt"]) "secrets/readme.txt" = false := by
  have h := exclude_negation_reinclusion.1 [pmParseOne "secrets/*"] []
    (pmParseOne "!secrets/readme.txt") "secrets/readme.txt" (by decide) (by decide)
    (by intro q hq; simp at hq)
  exact h

/-! ## C3: soundness of the literal-prefix pruning -/

theorem matchChunkF_zero (ch s : List Char) : matchChunkF 0 ch s = .err := rfl

theorem matchChunkF_nil (fuel : Nat) (s : List Char) : matchChunkF (fuel + 1) [] s = .ok s := rfl

theorem matchChunkF_cons_nil (fuel : Nat) (c : Char) (ch : List Char) :
    matchChunkF (fuel + 1) (c :: ch) [] = .nomatch := rfl

theorem matchChunkF_cons (fuel : Nat) (c : Char) (ch : List Char) (sc : Char) (s1 : List Char) :
    matchChunkF (fuel + 1) (c :: ch) (sc :: s1) =
      (if c = '[' then
        if ch.head? = some '^' then
          match rangeLoop sc false 0 ch.tail with
          | none => .err
          | some (m, rest) => if m = true then .nomatch else matchChunkF fuel rest s1
        else
          match rangeLoop sc false 0 ch with
          | none => .err
          | some (m, rest) => if m = false then .nomatch else matchChunkF fuel rest s1
      else if c = '?' then
        if sc = '/' then .nomatch else matchChunkF fuel ch s1
      else if c = '\\' then
        match ch with
        | [] => .err
        | d :: ch2 => if d = sc then matchChunkF fuel ch2 s1 else .nomatch
      else
        if c = sc then matchChunkF fuel ch s1 else .nomatch) := rfl

theorem matchChunkF_lit {fuel : Nat} :
    ∀ {ch s t : List Char}, matchChunkF fuel ch s = .ok t →
      (ch.takeWhile fun c => !(c = '[' || c = '?' || c = '\\')) <+: s := by
  induction fuel with
  | zero =>
    intro ch s t h
    rw [matchChunkF_zero] at h
    simp at h
  | succ fuel ih =>
    intro ch s t h
    cases ch with
    | nil => simp
    | cons c ch2 =>
      cases s with
      | nil =>
        rw [matchChunkF_cons_nil] at h
        simp at h
      | cons sc s1 =>
        rw [matchChunkF_cons] at h
        by_cases hb : c = '[' ∨ c = '?' ∨ c = '\\'
        · have htw : (c :: ch2).takeWhile (fun c => !(c = '[' || c = '?' || c = '\\')) = [] := by
            rcases hb with hb | hb | hb <;> subst hb <;> rfl
          rw [htw]
          simp
        · push_neg at hb
          obtain ⟨hb1, hb2, hb3⟩ := hb
          simp only [if_neg hb1, if_neg hb2, if_neg hb3] at h
          have hcs : c = sc := by
            by_cases hcs : c = sc
            · exact hcs
            · rw [if_neg hcs] at h
              simp at h
          rw [if_pos hcs] at h
          have hrec := ih h
          have htw : (c :: ch2).takeWhile (fun c => !(c = '[' || c = '?' || c = '\\'))
              = c :: ch2.takeWhile (fun c => !(c = '[' || c = '?' || c = '\\')) := by
            rw [List.takeWhile_cons_of_pos]
            simp [hb1, hb2, hb3]
          rw [htw, hcs]
          exact (List.prefix_cons_inj sc).mpr hrec

theorem scanBody_lit (l : List Char) :
    (l.takeWhile fun c => !isWildChar c) <+: (scanBody l false).1 := by
  induction l with
  | nil => simp [scanBody]
  | cons c cs ih =>
    by_cases hw : isWildChar c = true
    · have htw : (c :: cs).takeWhile (fun c => !isWildChar c) = [] := by
        simp [List.takeWhile_cons, hw]
      rw [htw]
      simp
    · have hc : c ≠ '*' ∧ c ≠ '?' ∧ c ≠ '[' ∧ c ≠ '\\' := by
        unfold isWildChar at hw
        simp only [Bool.or_eq_true, decide_eq_true_eq] at hw
        push_neg at hw
        exact ⟨hw.1.1.1, hw.1.1.2, hw.1.2, hw.2⟩
      obtain ⟨h1, h2, h3, h4⟩ := hc
      have htw : (c :: cs).takeWhile (fun c => !isWildChar c)
          = c :: cs.takeWhile (fun c => !isWildChar c) := by
        rw [List.takeWhile_cons_of_pos]
        simp [hw]
      rw [htw, scanBody.eq_def]
      dsimp only
      have hns : ¬(c = '*' ∧ (false : Bool) = false) := by simp [h1]
      rw [if_neg hns, if_neg h4]
      have hinr : (if c = '[' then true else if c = ']' then false else false) = false := by
        rw [if_neg h3]
        split <;> rfl
      rw [hinr]
      dsimp only
      exact (List.prefix_cons_inj c).mpr ih

theorem prefix_takeWhile_of_all {u v : List Char} {q : Char → Bool} (h : u <+: v)
    (hall : ∀ c ∈ u, q c = true) : u <+: v.takeWhile q := by
  induction u generalizing v with
  | nil => simp
  | cons a as ih =>
    cases v with
    | nil => simp at h
    | cons b bs =>
      rw [List.cons_prefix_cons] at h
      obtain ⟨rfl, h2⟩ := h
      rw [List.takeWhile_cons_of_pos (by simpa using hall a (by simp))]
      exact (List.prefix_cons_inj a).mpr (ih h2 fun c hc => hall c (by simp [hc]))

theorem goMatchF_zero (p n : List Char) : goMatchF 0 p n = none := rfl

theorem goMatchF_succ (fuel : Nat) (p n : List Char) :
    goMatchF (fuel + 1) p n =
      (if p.isEmpty then some n.isEmpty
      else
        let sc := scanChunk p
        let star := sc.1
        let chunk := sc.2.1
        let rest := sc.2.2
        if star && chunk.isEmpty then some (!n.contains '/')
        else
          match matchChunk chunk n with
          | .ok t =>
            if t.isEmpty || !rest.isEmpty then goMatchF fuel rest t
            else if star then starLoopF fuel chunk rest n
            else some false
          | .err => none
          | .nomatch =>
            if star then starLoopF fuel chunk rest n
            else some false) := rfl

/-- If the main match loop accepts a name, the pattern's literal prefix
(everything before its first wildcard character) is a prefix of the
name. -/
theorem goMatchF_lit {fuel : Nat} {p n : List Char} (h : goMatchF fuel p n = some true) :
    (p.takeWhile fun c => !isWildChar c) <+: n := by
  cases fuel with
  | zero =>
    rw [goMatchF_zero] at h
    simp at h
  | succ fuel =>
    rw [goMatchF_succ] at h
    cases p with
    | nil => simp
    | cons c p2 =>
      by_cases hw : isWildChar c = true
      · have htw : (c :: p2).takeWhile (fun c => !isWildChar c) = [] := by
          simp [List.takeWhile_cons, hw]
        rw [htw]
        simp
      · -- the head is a literal character, so the pattern does not start with a star
        have hc1 : c ≠ '*' := by
          intro hc
          subst hc
          simp [isWildChar] at hw
        have hstar : ((c :: p2).head? = some '*') = False := by
          simp [hc1]
        simp only [List.isEmpty_cons, if_neg (by simp : ¬false = true)] at h
        have hlit1 : ((c :: p2).takeWhile fun c => !isWildChar c)
            <+: (scanChunk (c :: p2)).2.1 := by
          unfold scanChunk
          have hdw : (c :: p2).dropWhile (fun c => c = '*') = c :: p2 := by
            simp [List.dropWhile, hc1]
          rw [hdw]
          exact scanBody_lit (c :: p2)
        have hsc : (scanChunk (c :: p2)).1 = false := by
          unfold scanChunk
          simp [hc1]
        rw [hsc] at h
        simp only [Bool.false_and, if_neg (by simp : ¬false = true)] at h
        -- the non-star path must have matched the chunk at position zero
        rcases hmc : matchChunk (scanChunk (c :: p2)).2.1 n with _ | _ | t
        · rw [hmc] at h
          simp at h
        · rw [hmc] at h
          simp only [if_neg (by simp : ¬false = true)] at h
          simp at h
        · have hchunk := matchChunkF_lit hmc
          have hall : ∀ d ∈ ((c :: p2).takeWhile fun c => !isWildChar c),
              (fun c => !(c = '[' || c = '?' || c = '\\')) d = true := by
            intro d hd
            have := List.mem_takeWhile_imp hd
            unfold isWildChar at this
            simp only [Bool.not_eq_true', Bool.or_eq_false_iff, decide_eq_false_iff_not] at this
            simp [this.1.1.2, this.1.2, this.2]
          exact (prefix_takeWhile_of_all hlit1 hall).trans hchunk

theorem globMatch_lit {pattern name : String} (h : globMatch pattern name = true) :
    (pattern.data.takeWhile fun c => !isWildChar c) <+: name.data := by
  unfold globMatch goMatch goMatchAux at h
  cases hg : goMatchF (2 * pattern.data.length + name.data.length + 1) pattern.data name.data with
  | none =>
    rw [hg] at h
    simp at h
  | some b =>
    rw [hg] at h
    simp only [Option.getD_some] at h
    subst h
    exact goMatchF_lit hg

/-- C3: include-stage subtree pruning is sound.  Whenever the walker's
prune condition `noPossiblePrefixMatch` holds for a directory path (no
literal pattern prefix from `patternPrefixes` is prefix-comparable with
it), no path strictly below that directory matches any include pattern
under the glob semantics of `filepath.Match`: the literal-prefix
optimization never suppresses an entry that the per-pattern glob tests
alone would have admitted. -/
theorem prefix_prune_sound (pats : List String) (dir s : String)
    (hprune : noPossiblePrefixMatch dir (patternPrefixes pats) = true)
    (hdesc : strHasPre s (dir ++ "/") = true) :
    ∀ pat ∈ pats, globMatch pat s = false := by
  intro pat hpat
  cases hg : globMatch pat s with
  | false => rfl
  | true =>
    exfalso
    have hlit : (pat.data.takeWhile fun c => !isWildChar c) <+: s.data := globMatch_lit hg
    have hdir : (dir.data ++ ['/']) <+: s.data := by
      unfold strHasPre at hdesc
      have h2 := List.isPrefixOf_iff_prefix.mp hdesc
      rwa [strData_append] at h2
    have hdirpre : dir.data <+: s.data := (List.prefix_append dir.data ['/']).trans hdir
    have hmem : (⟨pat.data.takeWhile fun c => !isWildChar c⟩ : String) ∈ patternPrefixes pats := by
      unfold patternPrefixes
      exact List.mem_map_of_mem _ hpat
    have hcond := (List.all_eq_true.mp hprune) _ hmem
    simp only [Bool.not_eq_true'] at hcond
    set P := pat.data.takeWhile fun c => !isWildChar c with hP
    have hPs : P = s.data.take P.length := List.prefix_iff_eq_take.mp hlit
    have hDs : dir.data = s.data.take dir.data.length := List.prefix_iff_eq_take.mp hdirpre
    by_cases hlen : P.length < dir.data.length
    · rw [if_pos hlen] at hcond
      have hchk : dir.data.take P.length = P := by
        rw [hDs, List.take_take, Nat.min_eq_left (by omega), ← hPs]
      rw [hchk] at hcond
      have : P.isPrefixOf P = true := List.isPrefixOf_iff_prefix.mpr (List.prefix_refl P)
      rw [this] at hcond
      exact Bool.true_eq_false.mp hcond
    · rw [if_neg hlen] at hcond
      have hdp : dir.data <+: P := by
        have : P.take dir.data.length = dir.data := by
          rw [hPs, List.take_take, Nat.min_eq_left (by omega), ← hDs]
        rw [← this]
        exact List.take_prefix _ P
      have : dir.data.isPrefixOf P = true := List.isPrefixOf_iff_prefix.mpr hdp
      rw [this] at hcond
      exact Bool.true_eq_false.mp hcond

/-- C3 witness: the directory `x` is pruned for the single include
pattern `a/b` (its literal prefix `a/b` is not prefix-comparable with
`x`), and indeed the descendant `x/y` matches no pattern. -/
theorem prefix_prune_sound_witness : globMatch "a/b" "x/y" = false :=
  prefix_prune_sound ["a/b"] "x" "x/y" (by decide) (by decide) "a/b" (by decide)

/-! ## Sorting and well-formedness transfer -/

theorem insertByName_perm (e : FSEntry) (l : List FSEntry) :
    (insertByName e l).Perm (e :: l) := by
  induction l with
  | nil => exact List.Perm.refl _
  | cons x xs ih =>
    unfold insertByName
    split
    · exact List.Perm.refl _
    · exact (ih.cons x).trans (List.Perm.swap e x xs)

theorem sortByName_perm (l : List FSEntry) : (sortByName l).Perm l := by
  induction l with
  | nil => exact List.Perm.refl _
  | cons x xs ih =>
    unfold sortByName
    exact (insertByName_perm x (sortByName xs)).trans (ih.cons x)

theorem sortTree_entryName (e : FSEntry) : (sortTree e).entryName = e.entryName := by
  cases e <;> rfl

theorem sortTree_isDirE (e : FSEntry) : (sortTree e).isDirE = e.isDirE := by
  cases e <;> rfl

theorem sortTreeL_map_name (cs : List FSEntry) :
    (sortTreeL cs).map FSEntry.entryName = cs.map FSEntry.entryName := by
  induction cs with
  | nil => rfl
  | cons c rest ih =>
    unfold sortTreeL
    simp only [List.map_cons, sortTree_entryName, ih]

theorem wfListB_iff (l : List FSEntry) :
    wfListB l = true ↔ (l.map FSEntry.entryName).Nodup ∧ ∀ e ∈ l, wfB e = true := by
  induction l with
  | nil => simp [wfListB]
  | cons c rest ih =>
    unfold wfListB
    simp only [Bool.and_eq_true, ih, List.map_cons, List.nodup_cons, List.all_eq_true,
      List.mem_map, List.mem_cons]
    constructor
    · rintro ⟨⟨hc, hall⟩, hnd, hwf⟩
      refine ⟨⟨?_, hnd⟩, ?_⟩
      · rintro ⟨x, hx, hxn⟩
        have := hall x hx
        simp only [bne_iff_ne, ne_eq] at this
        exact this hxn
      · rintro e (rfl | he)
        · exact hc
        · exact hwf e he
    · rintro ⟨⟨hni, hnd⟩, hwf⟩
      refine ⟨⟨hwf c (Or.inl rfl), ?_⟩, hnd, fun e he => hwf e (Or.inr he)⟩
      intro x hx
      simp only [bne_iff_ne, ne_eq]
      intro hxn
      exact hni ⟨x, hx, hxn⟩

theorem wfListB_of_perm {l l2 : List FSEntry} (h : l.Perm l2) (hw : wfListB l = true) :
    wfListB l2 = true := by
  rw [wfListB_iff] at hw ⊢
  exact ⟨((h.map FSEntry.entryName).nodup_iff).mp hw.1, fun e he => hw.2 e (h.mem_iff.mpr he)⟩

mutual

theorem wfB_sortTree : ∀ e : FSEntry, wfB e = true → wfB (sortTree e) = true
  | .file n m => fun h => h
  | .errEntry n fe => fun h => h
  | .dir n m cs => fun h => by
    unfold wfB sortTree
    unfold wfB at h
    simp only [Bool.and_eq_true] at h ⊢
    refine ⟨h.1, ?_⟩
    exact wfListB_of_perm (sortByName_perm (sortTreeL cs)).symm (wfListB_sortTreeL cs h.2)

theorem wfListB_sortTreeL : ∀ cs : List FSEntry, wfListB cs = true → wfListB (sortTreeL cs) = true
  | [] => fun h => h
  | c :: rest => fun h => by
    unfold wfListB sortTreeL
    unfold wfListB at h
    simp only [Bool.and_eq_true] at h ⊢
    obtain ⟨⟨h1, h2⟩, h3⟩ := h
    refine ⟨⟨wfB_sortTree c h1, ?_⟩, wfListB_sortTreeL rest h3⟩
    rw [List.all_eq_true] at h2 ⊢
    intro x hx
    have hxn : x.entryName ∈ (sortTreeL rest).map FSEntry.entryName :=
      List.mem_map_of_mem _ hx
    rw [sortTreeL_map_name] at hxn
    rcases List.mem_map.mp hxn with ⟨y, hy, hyn⟩
    have hne := h2 y hy
    rw [sortTree_entryName]
    simp only [bne_iff_ne, ne_eq] at hne ⊢
    rw [← hyn]
    exact hne

end

/-! ## C7: shape of every delivered path -/

theorem validNameB_props {n : String} (h : validNameB n = true) :
    n ≠ "" ∧ n.data.contains '/' = false ∧ n ≠ "." ∧ n ≠ ".." := by
  unfold validNameB at h
  simp only [Bool.and_eq_true, bne_iff_ne, ne_eq, Bool.not_eq_true'] at h
  exact ⟨h.1.1.1, h.1.1.2, h.1.2, h.2⟩

theorem goodRel_props {p : String} (h : goodRel p) :
    p ≠ "" ∧ p ≠ "." ∧ strHasPre p "./" = false := by
  obtain ⟨n, rest, hv, hdata, hsep⟩ := h
  obtain ⟨hne, hns, hnd, -⟩ := validNameB_props hv
  have hdn : n.data ≠ [] := fun hnil => hne ((data_nil_iff n).mp hnil)
  obtain ⟨c, cs, hcs⟩ : ∃ c cs, n.data = c :: cs := by
    cases hx : n.data with
    | nil => exact absurd hx hdn
    | cons c cs => exact ⟨c, cs, rfl⟩
  refine ⟨?_, ?_, ?_⟩
  · intro hp
    rw [hp] at hdata
    simp [hcs] at hdata
  · intro hp
    rw [hp] at hdata
    have hdot : ("." : String).data = ['.'] := rfl
    rw [hdot, hcs] at hdata
    have hsplit : c = '.' ∧ cs ++ rest = [] := by
      simpa using hdata.symm
    obtain ⟨rfl, h2⟩ := hsplit
    have hcs2 : cs = [] := by
      cases cs with
      | nil => rfl
      | cons a b => simp at h2
    apply hnd
    cases n with
    | mk d =>
      simp only at hcs
      rw [hcs, hcs2]
  · cases hpre : strHasPre p "./" with
    | false => rfl
    | true =>
      exfalso
      unfold strHasPre at hpre
      have h2 := List.isPrefixOf_iff_prefix.mp hpre
      have hds : ("./" : String).data = ['.', '/'] := rfl
      rw [hds, hdata, hcs] at h2
      simp only [List.cons_append, List.cons_prefix_cons] at h2
      obtain ⟨rfl, h3⟩ := h2
      cases cs with
      | nil =>
        rcases hsep with rfl | hsep
        · simp at h3
        · apply hnd
          cases n with
          | mk d =>
            simp only at hcs
            rw [hcs]
      | cons a b =>
        simp only [List.cons_append, List.cons_prefix_cons] at h3
        obtain ⟨rfl, -⟩ := h3
        rw [hcs] at hns
        simp at hns

theorem wfB_name {c : FSEntry} (h : wfB c = true) : validNameB c.entryName = true := by
  cases c with
  | file n m => exact h
  | errEntry n fe => exact h
  | dir n m cs =>
    unfold wfB at h
    exact (Bool.and_eq_true ..|>.mp h).1

theorem wfB_children {c : FSEntry} (h : wfB c = true) : wfListB c.childrenOf = true := by
  cases c with
  | file n m => rfl
  | errEntry n fe => rfl
  | dir n m cs =>
    unfold wfB at h
    exact (Bool.and_eq_true ..|>.mp h).2

theorem joinRel_goodRel {d : String} (hd : d = "." ∨ goodRel d) {n : String}
    (hn : validNameB n = true) : goodRel (joinRel d n) := by
  rcases hd with rfl | hgood
  · refine ⟨n, [], hn, ?_, Or.inl rfl⟩
    simp [joinRel]
  · obtain ⟨n0, rest0, hv0, hdata0, hsep0⟩ := hgood
    have hdne : d ≠ "." := (goodRel_props ⟨n0, rest0, hv0, hdata0, hsep0⟩).2.1
    refine ⟨n0, rest0 ++ '/' :: n.data, hv0, ?_, Or.inr ?_⟩
    · unfold joinRel
      rw [if_neg hdne]
      rw [strData_append, strData_append, hdata0]
      simp
    · cases rest0 with
      | nil => simp
      | cons a b =>
        rcases hsep0 with h0 | h0
        · simp at h0
        · simpa using h0

theorem walkFn_root (cfg : WalkCfg) (d : Bool) (m : FileMeta) (st : WalkState) :
    walkFn cfg d m "." st = (none, st) := by
  unfold walkFn
  rw [if_pos rfl]

mutual

theorem walkEntry_goodRel (cfg : WalkCfg) :
    ∀ (p : String) (e : FSEntry) (st : WalkState) (tr : List TraceEntry),
    (p = "." ∨ goodRel p) → wfListB e.childrenOf = true →
    ∀ s ∈ (walkEntry cfg p e st tr).2.1.emitted, s ∈ st.emitted ∨ goodRel s.Path := by
  intro p e st tr hp hwf
  have hadd : ∀ s ∈ (walkFn cfg e.isDirE e.metaOf p st).2.emitted,
      s ∈ st.emitted ∨ goodRel s.Path := by
    rcases hp with rfl | hgood
    · rw [walkFn_root]
      exact fun s hs => Or.inl hs
    · exact addition_ok (walkFn_emitted ..) hgood
  unfold walkEntry
  cases hw : walkFn cfg e.isDirE e.metaOf p st with
  | mk r st1 =>
    rw [hw] at hadd
    cases r with
    | some err =>
      dsimp only
      split
      · exact hadd
      · exact hadd
    | none =>
      dsimp only
      cases e with
      | file n m => exact hadd
      | errEntry n fe => exact hadd
      | dir n m cs =>
        have hrec := walkList_goodRel cfg p cs st1
          (tr ++ [⟨p, (FSEntry.dir n m cs).isDirE, none⟩]) hp hwf
        exact chain_sub hrec hadd

theorem walkList_goodRel (cfg : WalkCfg) :
    ∀ (dirPath : String) (cs : List FSEntry) (st : WalkState) (tr : List TraceEntry),
    (dirPath = "." ∨ goodRel dirPath) → wfListB cs = true →
    ∀ s ∈ (walkList cfg dirPath cs st tr).2.1.emitted, s ∈ st.emitted ∨ goodRel s.Path := by
  intro dirPath cs st tr hp hwf
  match cs with
  | [] => exact fun s hs => Or.inl hs
  | c :: rest =>
    unfold wfListB at hwf
    simp only [Bool.and_eq_true] at hwf
    obtain ⟨⟨hwc, -⟩, hwrest⟩ := hwf
    have hchild : goodRel (joinRel dirPath c.entryName) := joinRel_goodRel hp (wfB_name hwc)
    unfold walkList
    cases c with
    | errEntry n fe =>
      cases fe with
      | notExist =>
        exact walkList_goodRel cfg dirPath rest st
          (tr ++ [⟨joinRel dirPath n, false, some .notExist⟩]) hp hwrest
      | ioErr => exact fun s hs => Or.inl hs
    | file n m =>
      have hE := walkEntry_goodRel cfg (joinRel dirPath (FSEntry.file n m).entryName)
        (.file n m) st tr (Or.inr hchild) (wfB_children hwc)
      cases hw : walkEntry cfg (joinRel dirPath (FSEntry.file n m).entryName)
          (.file n m) st tr with
      | mk r rest2 =>
        rw [hw] at hE
        cases r with
        | some err =>
          dsimp only
          split
          · exact hE
          · exact chain_sub
              (walkList_goodRel cfg dirPath rest rest2.1 rest2.2 hp hwrest) hE
        | none =>
          dsimp only
          exact chain_sub
            (walkList_goodRel cfg dirPath rest rest2.1 rest2.2 hp hwrest) hE
    | dir n m cs2 =>
      have hE := walkEntry_goodRel cfg (joinRel dirPath (FSEntry.dir n m cs2).entryName)
        (.dir n m cs2) st tr (Or.inr hchild) (wfB_children hwc)
      cases hw : walkEntry cfg (joinRel dirPath (FSEntry.dir n m cs2).entryName)
          (.dir n m cs2) st tr with
      | mk r rest2 =>
        rw [hw] at hE
        cases r with
        | some err =>
          dsimp only
          split
          · exact hE
          · exact chain_sub
              (walkList_goodRel cfg dirPath rest rest2.1 rest2.2 hp hwrest) hE
        | none =>
          dsimp only
          exact chain_sub
            (walkList_goodRel cfg dirPath rest rest2.1 rest2.2 hp hwrest) hE

end

/-- C7: under every configuration, the resolved root itself (relative
path `"."`) is never delivered as a record, and every delivered record's
path is non-empty, not `"."`, and has no leading `"."` segment (it
starts with a valid filesystem name, being built relative to the root
from separator-joined names). -/
theorem emitted_paths_wellformed (doneAfter : Option Nat) (opt : Option WalkOpt)
    (cs : List FSEntry) (hwf : wfListB cs = true) :
    ∀ p ∈ walkEmittedPaths (Walk doneAfter opt cs),
      p ≠ "" ∧ p ≠ "." ∧ strHasPre p "./" = false := by
  intro p hp
  unfold walkEmittedPaths walkEmitted Walk at hp
  rcases List.mem_map.mp hp with ⟨s, hs, rfl⟩
  have hch : wfListB (sortTree (FSEntry.dir "" ⟨0, 0, 0⟩ cs)).childrenOf = true := by
    unfold sortTree FSEntry.childrenOf
    exact wfListB_of_perm (sortByName_perm (sortTreeL cs)).symm (wfListB_sortTreeL cs hwf)
  have h := walkEntry_goodRel _ "." (sortTree (.dir "" ⟨0, 0, 0⟩ cs)) initState []
    (Or.inl rfl) hch s hs
  rcases h with h | h
  · simp [initState] at h
  · exact goodRel_props h

/-- C7 witness: a one-file walk, checked at its single delivered path. -/
theorem emitted_paths_wellformed_witness :
    ("a" : String) ≠ "" ∧ ("a" : String) ≠ "." ∧ strHasPre "a" "./" = false :=
  emitted_paths_wellformed none none [.file "a" ⟨0, 0, 0⟩] (by decide) "a" (by decide)

/-! ## C8: cooperative cancellation -/

theorem emitStage_cases (cfg : WalkCfg) (m : FileMeta) (path : String) (st : WalkState) :
    (ctxDone cfg.doneAfter st.checks = true ∧
      emitStage cfg m path st = (some .canceled, { st with checks := st.checks + 1 })) ∨
    (ctxDone cfg.doneAfter st.checks = false ∧
      (emitStage cfg m path st =
          (none, { st with checks := st.checks + 1,
                           emitted := st.emitted ++ [mkStat path m] }) ∨
       emitStage cfg m path st = (none, { st with checks := st.checks + 1 }))) := by
  unfold emitStage
  cases hc : ctxDone cfg.doneAfter st.checks with
  | true =>
    left
    exact ⟨rfl, rfl⟩
  | false =>
    right
    refine ⟨rfl, ?_⟩
    dsimp only
    split
    · rename_i h
      simp at h
    · split
      · left
        rfl
      · right
        rfl

theorem excludeStage_cases (cfg : WalkCfg) (m : FileMeta) (d : Bool) (path : String)
    (st : WalkState) :
    excludeStage cfg m d path st = emitStage cfg m path st ∨
    excludeStage cfg m d path st = (some .skipDir, st) ∨
    excludeStage cfg m d path st = (none, st) := by
  unfold excludeStage
  split
  · exact Or.inl rfl
  · split
    · split
      · split
        · exact Or.inr (Or.inl rfl)
        · split
          · exact Or.inl rfl
          · exact Or.inr (Or.inl rfl)
      · exact Or.inr (Or.inr rfl)
    · exact Or.inl rfl

theorem walkFn_cases (cfg : WalkCfg) (d : Bool) (m : FileMeta) (path : String)
    (st : WalkState) :
    ∃ st1 : WalkState, st1.checks = st.checks ∧ st1.emitted = st.emitted ∧
      (walkFn cfg d m path st = (none, st1) ∨
       walkFn cfg d m path st = (some .skipDir, st1) ∨
       walkFn cfg d m path st = emitStage cfg m path st1) := by
  unfold walkFn
  split
  · exact ⟨st, rfl, rfl, Or.inl rfl⟩
  · split
    · rcases excludeStage_cases cfg m d path st with h | h | h
      · exact ⟨st, rfl, rfl, Or.inr (Or.inr h)⟩
      · exact ⟨st, rfl, rfl, Or.inr (Or.inl h)⟩
      · exact ⟨st, rfl, rfl, Or.inl h⟩
    · rename_i o ho
      split
      · rcases excludeStage_cases cfg m d path st with h | h | h
        · exact ⟨st, rfl, rfl, Or.inr (Or.inr h)⟩
        · exact ⟨st, rfl, rfl, Or.inr (Or.inl h)⟩
        · exact ⟨st, rfl, rfl, Or.inl h⟩
      · rename_i pats hpats
        split
        · rcases excludeStage_cases cfg m d path st with h | h | h
          · exact ⟨st, rfl, rfl, Or.inr (Or.inr h)⟩
          · exact ⟨st, rfl, rfl, Or.inr (Or.inl h)⟩
          · exact ⟨st, rfl, rfl, Or.inl h⟩
        · cases hm : pats.any (fun p => globMatch p path) with
          | true =>
            simp only [hm, Bool.true_and, if_true, reduceIte]
            cases d with
            | false =>
              simp only [Bool.false_eq_true, if_false, reduceIte]
              rcases excludeStage_cases cfg m false path st with h | h | h
              · exact ⟨st, rfl, rfl, Or.inr (Or.inr h)⟩
              · exact ⟨st, rfl, rfl, Or.inr (Or.inl h)⟩
              · exact ⟨st, rfl, rfl, Or.inl h⟩
            | true =>
              simp only [if_true, reduceIte]
              rcases excludeStage_cases cfg m true path { st with lastIncludedDir := path }
                  with h | h | h
              · exact ⟨{ st with lastIncludedDir := path }, rfl, rfl, Or.inr (Or.inr h)⟩
              · exact ⟨{ st with lastIncludedDir := path }, rfl, rfl, Or.inr (Or.inl h)⟩
              · exact ⟨{ st with lastIncludedDir := path }, rfl, rfl, Or.inl h⟩
          | false =>
            simp only [hm, Bool.false_and, if_false, if_neg (by simp : ¬false = true)]
            split
            · exact ⟨st, rfl, rfl, Or.inl rfl⟩
            · split
              · exact ⟨st, rfl, rfl, Or.inr (Or.inl rfl)⟩
              · rcases excludeStage_cases cfg m d path st with h | h | h
                · exact ⟨st, rfl, rfl, Or.inr (Or.inr h)⟩
                · exact ⟨st, rfl, rfl, Or.inr (Or.inl h)⟩
                · exact ⟨st, rfl, rfl, Or.inl h⟩
theorem excludeStage_core (cfg : WalkCfg) (m : FileMeta) (d : Bool) (path : String)
    (st : WalkState) :
    excludeStage cfg m d path st =
      match exCore cfg.pm d path st with
      | .inl r => r
      | .inr st1 => emitStage cfg m path st1 := by
  unfold excludeStage exCore
  cases cfg.pm with
  | none => rfl
  | some pats =>
    dsimp only
    split
    · split
      · split
        · rfl
        · split
          · rfl
          · rfl
      · rfl
    · rfl

theorem walkFn_core (cfg : WalkCfg) (d : Bool) (m : FileMeta) (path : String)
    (st : WalkState) :
    walkFn cfg d m path st =
      match walkCore cfg.opt cfg.pm cfg.prefixes d path st with
      | .inl r => r
      | .inr st1 => emitStage cfg m path st1 := by
  unfold walkFn walkCore
  split
  · rfl
  · cases cfg.opt with
    | none => exact excludeStage_core cfg m d path st
    | some o =>
      dsimp only
      cases o.IncludePatterns with
      | none => exact excludeStage_core cfg m d path st
      | some pats =>
        dsimp only
        split
        · exact excludeStage_core cfg m d path st
        · split
          · exact excludeStage_core cfg m d path _
          · split
            · rfl
            · split
              · rfl
              · exact excludeStage_core cfg m d path _
set_option maxHeartbeats 2000000 in
theorem walkCore_state (o : Option WalkOpt) (pm : Option (List ExPattern))
    (pfx : List String) (d : Bool) (path : String) (st : WalkState) :
    (∀ r, walkCore o pm pfx d path st = .inl r →
        r.2.checks = st.checks ∧ r.2.emitted = st.emitted) ∧
    (∀ st1, walkCore o pm pfx d path st = .inr st1 →
        st1.checks = st.checks ∧ st1.emitted = st.emitted) := by
  constructor <;> intro x hx <;> unfold walkCore exCore at hx <;> dsimp only at hx <;>
    (repeat' split at hx) <;> (cases hx <;> exact ⟨rfl, rfl⟩)

theorem emitStage_da (k : Nat) (o : Option WalkOpt) (pm : Option (List ExPattern))
    (pfx : List String) (m : FileMeta) (path : String) (st : WalkState)
    (h : ctxDone (some k) st.checks = false) :
    emitStage ⟨some k, o, pm, pfx⟩ m path st = emitStage ⟨none, o, pm, pfx⟩ m path st := by
  unfold emitStage
  rw [h]
  rfl

theorem walkFn_cancel (k : Nat) (o : Option WalkOpt) (pm : Option (List ExPattern))
    (pfx : List String) (d : Bool) (m : FileMeta) (path : String) (st : WalkState)
    (hst : st.checks ≤ k) :
    (walkFn ⟨some k, o, pm, pfx⟩ d m path st = walkFn ⟨none, o, pm, pfx⟩ d m path st ∧
     (walkFn ⟨none, o, pm, pfx⟩ d m path st).2.checks ≤ k) ∨
    (st.checks = k ∧
     (walkFn ⟨some k, o, pm, pfx⟩ d m path st).1 = some WErr.canceled ∧
     (walkFn ⟨some k, o, pm, pfx⟩ d m path st).2.checks = k + 1 ∧
     (walkFn ⟨some k, o, pm, pfx⟩ d m path st).2.emitted = st.emitted ∧
     k < (walkFn ⟨none, o, pm, pfx⟩ d m path st).2.checks) := by
  rw [walkFn_core ⟨some k, o, pm, pfx⟩ d m path st, walkFn_core ⟨none, o, pm, pfx⟩ d m path st]
  dsimp only
  cases hcore : walkCore o pm pfx d path st with
  | inl r =>
    left
    refine ⟨rfl, ?_⟩
    have hs := (walkCore_state o pm pfx d path st).1 r hcore
    dsimp only
    omega
  | inr st1 =>
    have hs := (walkCore_state o pm pfx d path st).2 st1 hcore
    dsimp only
    rcases Nat.lt_or_ge st.checks k with hlt | hge
    · left
      have hc2 : ctxDone (some k) st1.checks = false := by
        simp [ctxDone]
        omega
      refine ⟨emitStage_da k o pm pfx m path st1 hc2, ?_⟩
      rcases emitStage_cases ⟨none, o, pm, pfx⟩ m path st1 with ⟨hc, _⟩ | ⟨_, hE | hE⟩
      · simp [ctxDone] at hc
      · rw [hE]
        dsimp only
        omega
      · rw [hE]
        dsimp only
        omega
    · have heq : st.checks = k := Nat.le_antisymm hst hge
      right
      have hc2 : ctxDone (some k) st1.checks = true := by
        simp [ctxDone]
        omega
      rcases emitStage_cases ⟨some k, o, pm, pfx⟩ m path st1 with ⟨_, hE2⟩ | ⟨hc, _⟩
      · rcases emitStage_cases ⟨none, o, pm, pfx⟩ m path st1 with ⟨hc1, _⟩ | ⟨_, hE1 | hE1⟩
        · simp [ctxDone] at hc1
        · rw [hE2, hE1]
          refine ⟨heq, rfl, by dsimp only; omega, by dsimp only; rw [hs.2], by dsimp only; omega⟩
        · rw [hE2, hE1]
          refine ⟨heq, rfl, by dsimp only; omega, by dsimp only; rw [hs.2], by dsimp only; omega⟩
      · rw [hc2] at hc
        cases hc
theorem growsTo_refl (st : WalkState) : growsTo st st :=
  ⟨List.prefix_refl _, le_refl _, le_refl _⟩

theorem growsTo_trans {s1 s2 s3 : WalkState} (h1 : growsTo s1 s2) (h2 : growsTo s2 s3) :
    growsTo s1 s3 :=
  ⟨h1.1.trans h2.1, h1.2.1.trans h2.2.1, by
    have a1 := h1.2.2
    have a2 := h2.2.2
    omega⟩

theorem walkFn_mono (cfg : WalkCfg) (d : Bool) (m : FileMeta) (path : String)
    (st : WalkState) : growsTo st (walkFn cfg d m path st).2 := by
  rw [walkFn_core]
  cases hcore : walkCore cfg.opt cfg.pm cfg.prefixes d path st with
  | inl r =>
    have hs := (walkCore_state cfg.opt cfg.pm cfg.prefixes d path st).1 r hcore
    refine ⟨?_, ?_, ?_⟩
    · show st.emitted <+: r.2.emitted
      rw [hs.2]
    · show st.checks ≤ r.2.checks
      omega
    · show r.2.emitted.length + st.checks ≤ st.emitted.length + r.2.checks
      rw [hs.1, hs.2]
  | inr st1 =>
    have hs := (walkCore_state cfg.opt cfg.pm cfg.prefixes d path st).2 st1 hcore
    have h2 : st1.emitted.length = st.emitted.length := by rw [hs.2]
    dsimp only
    rcases emitStage_cases cfg m path st1 with ⟨_, hE⟩ | ⟨_, hE | hE⟩ <;> rw [hE]
    · refine ⟨?_, ?_, ?_⟩
      · show st.emitted <+: st1.emitted
        rw [hs.2]
      · show st.checks ≤ st1.checks + 1
        omega
      · show st1.emitted.length + st.checks ≤ st.emitted.length + (st1.checks + 1)
        omega
    · refine ⟨?_, ?_, ?_⟩
      · show st.emitted <+: st1.emitted ++ [mkStat path m]
        rw [hs.2]
        exact List.prefix_append _ _
      · show st.checks ≤ st1.checks + 1
        omega
      · show (st1.emitted ++ [mkStat path m]).length + st.checks ≤
            st.emitted.length + (st1.checks + 1)
        simp only [List.length_append, List.length_cons, List.length_nil]
        omega
    · refine ⟨?_, ?_, ?_⟩
      · show st.emitted <+: st1.emitted
        rw [hs.2]
      · show st.checks ≤ st1.checks + 1
        omega
      · show st1.emitted.length + st.checks ≤ st.emitted.length + (st1.checks + 1)
        omega

mutual

theorem walkEntry_mono (cfg : WalkCfg) (path : String) (e : FSEntry) (st : WalkState)
    (tr : List TraceEntry) : growsTo st (walkEntry cfg path e st tr).2.1 := by
  have hfn := walkFn_mono cfg e.isDirE e.metaOf path st
  unfold walkEntry
  cases hw : walkFn cfg e.isDirE e.metaOf path st with
  | mk r st1 =>
    rw [hw] at hfn
    cases r with
    | some err =>
      dsimp only
      split
      · exact hfn
      · exact hfn
    | none =>
      dsimp only
      cases e with
      | file n m => exact hfn
      | errEntry n fe => exact hfn
      | dir n m cs =>
        exact growsTo_trans hfn
          (walkList_mono cfg path cs st1 (tr ++ [⟨path, (FSEntry.dir n m cs).isDirE, none⟩]))

theorem walkList_mono (cfg : WalkCfg) (dirPath : String) (cs : List FSEntry)
    (st : WalkState) (tr : List TraceEntry) : growsTo st (walkList cfg dirPath cs st tr).2.1 := by
  match cs with
  | [] => exact growsTo_refl st
  | c :: rest =>
    unfold walkList
    cases c with
    | errEntry n fe =>
      cases fe with
      | notExist =>
        exact walkList_mono cfg dirPath rest st
          (tr ++ [⟨joinRel dirPath n, false, some .notExist⟩])
      | ioErr => exact growsTo_refl st
    | file n m =>
      have hE := walkEntry_mono cfg (joinRel dirPath (FSEntry.file n m).entryName)
        (.file n m) st tr
      cases hw : walkEntry cfg (joinRel dirPath (FSEntry.file n m).entryName)
          (.file n m) st tr with
      | mk r rest2 =>
        rw [hw] at hE
        cases r with
        | some err =>
          dsimp only
          split
          · exact hE
          · exact growsTo_trans hE (walkList_mono cfg dirPath rest rest2.1 rest2.2)
        | none =>
          dsimp only
          exact growsTo_trans hE (walkList_mono cfg dirPath rest rest2.1 rest2.2)
    | dir n m cs2 =>
      have hE := walkEntry_mono cfg (joinRel dirPath (FSEntry.dir n m cs2).entryName)
        (.dir n m cs2) st tr
      cases hw : walkEntry cfg (joinRel dirPath (FSEntry.dir n m cs2).entryName)
          (.dir n m cs2) st tr with
      | mk r rest2 =>
        rw [hw] at hE
        cases r with
        | some err =>
          dsimp only
          split
          · exact hE
          · exact growsTo_trans hE (walkList_mono cfg dirPath rest rest2.1 rest2.2)
        | none =>
          dsimp only
          exact growsTo_trans hE (walkList_mono cfg dirPath rest rest2.1 rest2.2)

end

theorem cancelRel_grows {k : Nat} {st st' : WalkState}
    {r1 r2 : Option WErr × WalkState × List TraceEntry}
    (hg : growsTo st st') (h : cancelRel k st' r1 r2) : cancelRel k st r1 r2 := by
  rcases h with h | ⟨h1, h2, h3, h4, h5⟩
  · exact Or.inl h
  · refine Or.inr ⟨h1, h2, h3, h4, ?_⟩
    have a1 := hg.2.2
    have a2 := hg.2.1
    omega

mutual

theorem walkEntry_cancel (k : Nat) (o : Option WalkOpt) (pm : Option (List ExPattern))
    (pfx : List String) (p : String) (e : FSEntry) (st : WalkState) (tr : List TraceEntry)
    (hst : st.checks ≤ k) :
    cancelRel k st (walkEntry ⟨none, o, pm, pfx⟩ p e st tr)
      (walkEntry ⟨some k, o, pm, pfx⟩ p e st tr) := by
  have hfn := walkFn_cancel k o pm pfx e.isDirE e.metaOf p st hst
  have hm1 := walkFn_mono ⟨none, o, pm, pfx⟩ e.isDirE e.metaOf p st
  unfold walkEntry
  rcases hfn with ⟨heq, hle⟩ | ⟨hck, hc1, hc2, hc3, hlt⟩
  · rw [heq]
    cases hw : walkFn ⟨none, o, pm, pfx⟩ e.isDirE e.metaOf p st with
    | mk r st1 =>
      rw [hw] at hle hm1
      cases r with
      | some err =>
        dsimp only
        split
        · exact Or.inl ⟨hle, rfl⟩
        · exact Or.inl ⟨hle, rfl⟩
      | none =>
        dsimp only
        cases e with
        | file n m => exact Or.inl ⟨hle, rfl⟩
        | errEntry n fe => exact Or.inl ⟨hle, rfl⟩
        | dir n m cs =>
          exact cancelRel_grows hm1 (walkList_cancel k o pm pfx p cs st1
            (tr ++ [⟨p, (FSEntry.dir n m cs).isDirE, none⟩]) hle)
  · cases hw2 : walkFn ⟨some k, o, pm, pfx⟩ e.isDirE e.metaOf p st with
    | mk r2 st2 =>
      rw [hw2] at hc1 hc2 hc3
      dsimp only at hc1 hc2 hc3
      subst hc1
      cases hw1 : walkFn ⟨none, o, pm, pfx⟩ e.isDirE e.metaOf p st with
      | mk r1 st1 =>
        rw [hw1] at hlt hm1
        dsimp only at hlt
        dsimp only
        simp only [show (WErr.canceled == WErr.skipDir) = false from rfl, Bool.and_false,
          Bool.false_eq_true, if_false]
        cases r1 with
        | some err =>
          dsimp only
          split
          · refine Or.inr ⟨hlt, rfl, hc2, ?_, ?_⟩
            · rw [hc3]
              exact hm1.1
            · rw [hc3]
              omega
          · refine Or.inr ⟨hlt, rfl, hc2, ?_, ?_⟩
            · rw [hc3]
              exact hm1.1
            · rw [hc3]
              omega
        | none =>
          dsimp only
          cases e with
          | file n m =>
            refine Or.inr ⟨hlt, rfl, hc2, ?_, ?_⟩
            · rw [hc3]
              exact hm1.1
            · rw [hc3]
              omega
          | errEntry n fe =>
            refine Or.inr ⟨hlt, rfl, hc2, ?_, ?_⟩
            · rw [hc3]
              exact hm1.1
            · rw [hc3]
              omega
          | dir n m cs =>
            dsimp only
            have hg := walkList_mono ⟨none, o, pm, pfx⟩ p cs st1
              (tr ++ [⟨p, (FSEntry.dir n m cs).isDirE, none⟩])
            refine Or.inr ⟨?_, rfl, hc2, ?_, ?_⟩
            · have := hg.2.1
              omega
            · rw [hc3]
              exact hm1.1.trans hg.1
            · rw [hc3]
              omega

theorem walkList_cancel (k : Nat) (o : Option WalkOpt) (pm : Option (List ExPattern))
    (pfx : List String) (dirPath : String) (cs : List FSEntry) (st : WalkState)
    (tr : List TraceEntry) (hst : st.checks ≤ k) :
    cancelRel k st (walkList ⟨none, o, pm, pfx⟩ dirPath cs st tr)
      (walkList ⟨some k, o, pm, pfx⟩ dirPath cs st tr) := by
  match cs with
  | [] => exact Or.inl ⟨hst, rfl⟩
  | c :: rest =>
    unfold walkList
    cases c with
    | errEntry n fe =>
      cases fe with
      | notExist =>
        exact walkList_cancel k o pm pfx dirPath rest st
          (tr ++ [⟨joinRel dirPath n, false, some .notExist⟩]) hst
      | ioErr => exact Or.inl ⟨hst, rfl⟩
    | file n m =>
      have hE := walkEntry_cancel k o pm pfx (joinRel dirPath (FSEntry.file n m).entryName)
        (.file n m) st tr hst
      have hm := walkEntry_mono ⟨none, o, pm, pfx⟩
        (joinRel dirPath (FSEntry.file n m).entryName) (.file n m) st tr
      rcases hE with ⟨hle, heq⟩ | ⟨hlt, h1, h2, h3, h4⟩
      · rw [heq]
        cases hw : walkEntry ⟨none, o, pm, pfx⟩ (joinRel dirPath (FSEntry.file n m).entryName)
            (.file n m) st tr with
        | mk r q1 =>
          rw [hw] at hle hm
          cases r with
          | some err =>
            dsimp only
            split
            · exact Or.inl ⟨hle, rfl⟩
            · exact cancelRel_grows hm
                (walkList_cancel k o pm pfx dirPath rest q1.1 q1.2 hle)
          | none =>
            dsimp only
            exact cancelRel_grows hm
              (walkList_cancel k o pm pfx dirPath rest q1.1 q1.2 hle)
      · cases hw2 : walkEntry ⟨some k, o, pm, pfx⟩
            (joinRel dirPath (FSEntry.file n m).entryName) (.file n m) st tr with
        | mk r2 q2 =>
          rw [hw2] at h1 h2 h3 h4
          dsimp only at h1 h2 h3 h4
          subst h1
          cases hw1 : walkEntry ⟨none, o, pm, pfx⟩
              (joinRel dirPath (FSEntry.file n m).entryName) (.file n m) st tr with
          | mk r1 q1 =>
            rw [hw1] at hlt h3 hm
            dsimp only at hlt h3
            dsimp only
            simp only [show (WErr.canceled != WErr.skipDir) = true from rfl, Bool.or_true,
              if_true]
            cases r1 with
            | some err =>
              dsimp only
              split
              · exact Or.inr ⟨hlt, rfl, h2, h3, h4⟩
              · have hg := walkList_mono ⟨none, o, pm, pfx⟩ dirPath rest q1.1 q1.2
                refine Or.inr ⟨?_, rfl, h2, h3.trans hg.1, h4⟩
                have := hg.2.1
                omega
            | none =>
              dsimp only
              have hg := walkList_mono ⟨none, o, pm, pfx⟩ dirPath rest q1.1 q1.2
              refine Or.inr ⟨?_, rfl, h2, h3.trans hg.1, h4⟩
              have := hg.2.1
              omega
    | dir n m cs2 =>
      have hE := walkEntry_cancel k o pm pfx (joinRel dirPath (FSEntry.dir n m cs2).entryName)
        (.dir n m cs2) st tr hst
      have hm := walkEntry_mono ⟨none, o, pm, pfx⟩
        (joinRel dirPath (FSEntry.dir n m cs2).entryName) (.dir n m cs2) st tr
      rcases hE with ⟨hle, heq⟩ | ⟨hlt, h1, h2, h3, h4⟩
      · rw [heq]
        cases hw : walkEntry ⟨none, o, pm, pfx⟩
            (joinRel dirPath (FSEntry.dir n m cs2).entryName) (.dir n m cs2) st tr with
        | mk r q1 =>
          rw [hw] at hle hm
          cases r with
          | some err =>
            dsimp only
            split
            · exact Or.inl ⟨hle, rfl⟩
            · exact cancelRel_grows hm
                (walkList_cancel k o pm pfx dirPath rest q1.1 q1.2 hle)
          | none =>
            dsimp only
            exact cancelRel_grows hm
              (walkList_cancel k o pm pfx dirPath rest q1.1 q1.2 hle)
      · cases hw2 : walkEntry ⟨some k, o, pm, pfx⟩
            (joinRel dirPath (FSEntry.dir n m cs2).entryName) (.dir n m cs2) st tr with
        | mk r2 q2 =>
          rw [hw2] at h1 h2 h3 h4
          dsimp only at h1 h2 h3 h4
          subst h1
          cases hw1 : walkEntry ⟨none, o, pm, pfx⟩
              (joinRel dirPath (FSEntry.dir n m cs2).entryName) (.dir n m cs2) st tr with
          | mk r1 q1 =>
            rw [hw1] at hlt h3 hm
            dsimp only at hlt h3
            dsimp only
            simp only [show (WErr.canceled != WErr.skipDir) = true from rfl, Bool.or_true,
              if_true]
            cases r1 with
            | some err =>
              dsimp only
              split
              · exact Or.inr ⟨hlt, rfl, h2, h3, h4⟩
              · have hg := walkList_mono ⟨none, o, pm, pfx⟩ dirPath rest q1.1 q1.2
                refine Or.inr ⟨?_, rfl, h2, h3.trans hg.1, h4⟩
                have := hg.2.1
                omega
            | none =>
              dsimp only
              have hg := walkList_mono ⟨none, o, pm, pfx⟩ dirPath rest q1.1 q1.2
              refine Or.inr ⟨?_, rfl, h2, h3.trans hg.1, h4⟩
              have := hg.2.1
              omega

end

/-- C8: cooperative cancellation (walker.go lines 162-174).  The
cancellation signal is checked exactly once per surviving entry,
immediately before the record is delivered.  Comparing a walk whose
context is done from check `k` on with the same walk under a
never-done context: if the uncancelled walk performs at most `k`
checks the two runs are identical; otherwise the cancelled walk stops
with the cancellation error right at check `k + 1` (so exactly one
check observes cancellation and nothing runs after it), the in-flight
record is not delivered (at most `k` records go out), and the records
delivered before the cancellation point are exactly a prefix of the
uncancelled walk's stream, unaffected. -/
theorem walk_cancellation (k : Nat) (opt : Option WalkOpt) (cs : List FSEntry) :
    ((Walk none opt cs).2.1.checks ≤ k → Walk (some k) opt cs = Walk none opt cs) ∧
    (k < (Walk none opt cs).2.1.checks →
      walkErr (Walk (some k) opt cs) = some WErr.canceled ∧
      (Walk (some k) opt cs).2.1.checks = k + 1 ∧
      walkEmitted (Walk (some k) opt cs) <+: walkEmitted (Walk none opt cs) ∧
      (walkEmitted (Walk (some k) opt cs)).length ≤ k) := by
  have h : cancelRel k initState (Walk none opt cs) (Walk (some k) opt cs) := by
    unfold Walk
    exact walkEntry_cancel k opt _ _ "." (sortTree (.dir "" ⟨0, 0, 0⟩ cs)) initState []
      (Nat.zero_le k)
  rcases h with ⟨hle, heq⟩ | ⟨hlt, h1, h2, h3, h4⟩
  · refine ⟨fun _ => heq, fun hk => absurd hle (by omega)⟩
  · refine ⟨fun hk => absurd hk (by omega), fun _ => ⟨h1, h2, h3, ?_⟩⟩
    show (Walk (some k) opt cs).2.1.emitted.length ≤ k
    have h0 : initState.checks = 0 := rfl
    have h0' : initState.emitted.length = 0 := rfl
    omega

theorem walk_cancellation_witness :
    (Walk (some 5) none exTreeAB = Walk none none exTreeAB) ∧
    (walkErr (Walk (some 1) none exTreeAB) = some WErr.canceled ∧
     (Walk (some 1) none exTreeAB).2.1.checks = 1 + 1 ∧
     walkEmitted (Walk (some 1) none exTreeAB) <+: walkEmitted (Walk none none exTreeAB) ∧
     (walkEmitted (Walk (some 1) none exTreeAB)).length ≤ 1) :=
  ⟨(walk_cancellation 5 none exTreeAB).1 (by decide),
   (walk_cancellation 1 none exTreeAB).2 (by decide)⟩

/-! ## C1: the plain-configuration walk -/

theorem joinRel_ne_dot (d : String) {n : String} (hn : validNameB n = true) :
    joinRel d n ≠ "." := by
  unfold joinRel
  split
  · exact (validNameB_props hn).2.2.1
  · intro h
    have hm : '/' ∈ (d ++ "/" ++ n).data := by
      rw [strData_append, strData_append]
      exact List.mem_append_left _ (List.mem_append_right _ (by simp [String.data]))
    rw [h] at hm
    simp [String.data] at hm

theorem emitStage_plain (cfg : WalkCfg) (m : FileMeta) (path : String) (st : WalkState)
    (hda : cfg.doneAfter = none) (hopt : plainOpt cfg.opt) :
    emitStage cfg m path st =
      (none, { st with checks := st.checks + 1, emitted := st.emitted ++ [mkStat path m] }) := by
  unfold emitStage
  rw [hda]
  cases ho : cfg.opt with
  | none => rfl
  | some o =>
    rw [ho] at hopt
    obtain ⟨-, -, hmap⟩ := hopt
    dsimp only
    rw [hmap]
    rfl

theorem walkFn_plain (cfg : WalkCfg) (d : Bool) (m : FileMeta) (path : String)
    (st : WalkState) (hda : cfg.doneAfter = none) (hopt : plainOpt cfg.opt)
    (hpm : cfg.pm = none) (hp : path ≠ ".") :
    walkFn cfg d m path st =
      (none, { st with checks := st.checks + 1, emitted := st.emitted ++ [mkStat path m] }) := by
  unfold walkFn
  rw [if_neg hp]
  have hex : excludeStage cfg m d path st =
      (none, { st with checks := st.checks + 1, emitted := st.emitted ++ [mkStat path m] }) := by
    unfold excludeStage
    rw [hpm]
    exact emitStage_plain cfg m path st hda hopt
  cases ho : cfg.opt with
  | none => exact hex
  | some o =>
    dsimp only
    rw [ho] at hopt
    rw [hopt.1]
    exact hex

mutual

theorem walkEntry_plain (cfg : WalkCfg) (hda : cfg.doneAfter = none)
    (hopt : plainOpt cfg.opt) (hpm : cfg.pm = none) (p : String) (e : FSEntry)
    (st : WalkState) (tr : List TraceEntry) (hp : p ≠ ".") (he : errFreeB e = true)
    (hw : wfB e = true) :
    (walkEntry cfg p e st tr).1 = none ∧
    (walkEntry cfg p e st tr).2.1.emitted.map (fun s => s.Path) =
      st.emitted.map (fun s => s.Path) ++ preorderP p e := by
  unfold walkEntry
  rw [walkFn_plain cfg e.isDirE e.metaOf p st hda hopt hpm hp]
  dsimp only
  cases e with
  | file n m =>
    refine ⟨rfl, ?_⟩
    simp [preorderP, mkStat_Path]
  | errEntry n fe => simp [errFreeB] at he
  | dir n m cs =>
    have hwcs : wfListB cs = true := by
      unfold wfB at hw
      exact (Bool.and_eq_true ..|>.mp hw).2
    have hecs : errFreeL cs = true := he
    have hrec := walkList_plain cfg hda hopt hpm p cs
      { st with checks := st.checks + 1,
                emitted := st.emitted ++ [mkStat p (FSEntry.dir n m cs).metaOf] }
      (tr ++ [⟨p, (FSEntry.dir n m cs).isDirE, none⟩]) hecs hwcs
    refine ⟨hrec.1, ?_⟩
    rw [hrec.2]
    simp [preorderP, mkStat_Path]

theorem walkList_plain (cfg : WalkCfg) (hda : cfg.doneAfter = none)
    (hopt : plainOpt cfg.opt) (hpm : cfg.pm = none) (dirPath : String)
    (cs : List FSEntry) (st : WalkState) (tr : List TraceEntry)
    (he : errFreeL cs = true) (hw : wfListB cs = true) :
    (walkList cfg dirPath cs st tr).1 = none ∧
    (walkList cfg dirPath cs st tr).2.1.emitted.map (fun s => s.Path) =
      st.emitted.map (fun s => s.Path) ++ preorderL dirPath cs := by
  match cs with
  | [] =>
    refine ⟨rfl, ?_⟩
    show List.map (fun s => s.Path) st.emitted = _
    simp [preorderL]
  | c :: rest =>
    have hc : errFreeB c = true ∧ errFreeL rest = true := by
      unfold errFreeL at he
      exact Bool.and_eq_true ..|>.mp he
    have hwc : wfB c = true ∧ wfListB rest = true := by
      unfold wfListB at hw
      have h := Bool.and_eq_true ..|>.mp hw
      exact ⟨(Bool.and_eq_true ..|>.mp h.1).1, h.2⟩
    unfold walkList
    cases c with
    | errEntry n fe => simp [errFreeB] at hc
    | file n m =>
      have hE := walkEntry_plain cfg hda hopt hpm
        (joinRel dirPath (FSEntry.file n m).entryName) (.file n m) st tr
        (joinRel_ne_dot dirPath (wfB_name hwc.1)) hc.1 hwc.1
      cases hwE : walkEntry cfg (joinRel dirPath (FSEntry.file n m).entryName)
          (.file n m) st tr with
      | mk r q =>
        rw [hwE] at hE
        dsimp only at hE
        rw [hE.1]
        dsimp only
        have hrec := walkList_plain cfg hda hopt hpm dirPath rest q.1 q.2 hc.2 hwc.2
        refine ⟨hrec.1, ?_⟩
        rw [hrec.2, hE.2]
        simp [preorderL]
    | dir n m cs2 =>
      have hE := walkEntry_plain cfg hda hopt hpm
        (joinRel dirPath (FSEntry.dir n m cs2).entryName) (.dir n m cs2) st tr
        (joinRel_ne_dot dirPath (wfB_name hwc.1)) hc.1 hwc.1
      cases hwE : walkEntry cfg (joinRel dirPath (FSEntry.dir n m cs2).entryName)
          (.dir n m cs2) st tr with
      | mk r q =>
        rw [hwE] at hE
        dsimp only at hE
        rw [hE.1]
        dsimp only
        have hrec := walkList_plain cfg hda hopt hpm dirPath rest q.1 q.2 hc.2 hwc.2
        refine ⟨hrec.1, ?_⟩
        rw [hrec.2, hE.2]
        simp [preorderL]

end

theorem not_mem_of_contains_false {l : List Char} {c : Char} (h : l.contains c = false) :
    c ∉ l := by
  simp at h
  exact h

theorem errFreeL_iff (l : List FSEntry) :
    errFreeL l = true ↔ ∀ c ∈ l, errFreeB c = true := by
  induction l with
  | nil => simp [errFreeL]
  | cons c rest ih =>
    unfold errFreeL
    simp [Bool.and_eq_true, ih]

theorem errFreeL_perm {l l2 : List FSEntry} (h : l.Perm l2) : errFreeL l = errFreeL l2 := by
  rw [Bool.eq_iff_iff, errFreeL_iff, errFreeL_iff]
  exact ⟨fun ha c hc => ha c (h.mem_iff.mpr hc), fun ha c hc => ha c (h.mem_iff.mp hc)⟩

mutual

theorem errFreeB_sortTree : ∀ e : FSEntry, errFreeB (sortTree e) = errFreeB e
  | .file n m => rfl
  | .errEntry n fe => rfl
  | .dir n m cs => by
    show errFreeL (sortByName (sortTreeL cs)) = errFreeL cs
    rw [errFreeL_perm (sortByName_perm _), errFreeL_sortTreeL cs]

theorem errFreeL_sortTreeL : ∀ cs : List FSEntry, errFreeL (sortTreeL cs) = errFreeL cs
  | [] => rfl
  | c :: rest => by
    show (errFreeB (sortTree c) && errFreeL (sortTreeL rest)) = (errFreeB c && errFreeL rest)
    rw [errFreeB_sortTree c, errFreeL_sortTreeL rest]

end

theorem joinRel_data (d n : String) :
    (joinRel d n).data = (if d = "." then [] else d.data ++ ['/']) ++ n.data := by
  unfold joinRel
  split
  all_goals simp [strData_append]

theorem extOf_pre {base q : String} (h : extOf base q) : base.data <+: q.data := by
  rcases h with rfl | h
  · exact List.prefix_refl _
  · exact (List.prefix_append _ _).trans h

theorem extOf_trans {p base q : String} (h1 : extOf p base) (h2 : extOf base q) :
    extOf p q := by
  rcases h2 with rfl | h2
  · exact h1
  · rcases h1 with rfl | h1
    · exact Or.inr h2
    · exact Or.inr ((h1.trans (List.prefix_append _ _)).trans h2)

theorem extOf_join {p : String} (n : String) (hp : p ≠ ".") : extOf p (joinRel p n) := by
  right
  rw [joinRel_data, if_neg hp]
  exact List.prefix_append _ _

theorem extOf_toSep {d n q : String} (h : extOf (joinRel d n) q) :
    ∃ t, q.data = (if d = "." then [] else d.data ++ ['/']) ++ n.data ++ t ∧
      (t = [] ∨ t.head? = some '/') := by
  rcases h with rfl | h
  · exact ⟨[], by simp [joinRel_data], Or.inl rfl⟩
  · obtain ⟨u, hu⟩ := h
    refine ⟨'/' :: u, ?_, Or.inr rfl⟩
    rw [← hu, joinRel_data]
    simp

theorem sep_names {a b t u : List Char} (ha : '/' ∉ a) (hb : '/' ∉ b)
    (hta : t = [] ∨ t.head? = some '/') (htb : u = [] ∨ u.head? = some '/')
    (h : a ++ t = b ++ u) : a = b := by
  induction a generalizing b with
  | nil =>
    cases b with
    | nil => rfl
    | cons y ys =>
      simp only [List.nil_append, List.cons_append] at h
      rcases hta with rfl | hh
      · cases h
      · subst h
        simp only [List.head?_cons, Option.some.injEq] at hh
        subst hh
        exact absurd (List.mem_cons_self _ _) hb
  | cons x xs ih =>
    cases b with
    | nil =>
      simp only [List.cons_append, List.nil_append] at h
      rcases htb with rfl | hh
      · cases h
      · subst h
        simp only [List.head?_cons, Option.some.injEq] at hh
        subst hh
        exact absurd (List.mem_cons_self _ _) ha
    | cons y ys =>
      simp only [List.cons_append, List.cons.injEq] at h
      obtain ⟨rfl, h2⟩ := h
      rw [ih (fun hm => ha (List.mem_cons_of_mem _ hm))
        (fun hm => hb (List.mem_cons_of_mem _ hm)) h2]

theorem extOf_disjoint {d n n' q : String} (hn : validNameB n = true)
    (hn' : validNameB n' = true) (hne : n ≠ n') (h1 : extOf (joinRel d n) q)
    (h2 : extOf (joinRel d n') q) : False := by
  obtain ⟨t, ht, hts⟩ := extOf_toSep h1
  obtain ⟨u, hu, hus⟩ := extOf_toSep h2
  rw [ht] at hu
  have h3 : n.data ++ t = n'.data ++ u := by
    rw [List.append_assoc, List.append_assoc] at hu
    exact List.append_cancel_left hu
  have hna : '/' ∉ n.data := not_mem_of_contains_false (validNameB_props hn).2.1
  have hnb : '/' ∉ n'.data := not_mem_of_contains_false (validNameB_props hn').2.1
  exact hne (String.toList_inj.mp (sep_names hna hnb hts hus h3))

mutual

theorem preorderP_ext (p : String) (e : FSEntry) (hp : p ≠ ".") (hw : wfB e = true) :
    ∀ q ∈ preorderP p e, extOf p q := by
  match e with
  | .file n m =>
    intro q hq
    simp only [preorderP, List.mem_singleton] at hq
    exact hq ▸ Or.inl rfl
  | .errEntry n fe =>
    intro q hq
    simp only [preorderP, List.mem_singleton] at hq
    exact hq ▸ Or.inl rfl
  | .dir n m cs =>
    intro q hq
    have hwcs : wfListB cs = true := by
      unfold wfB at hw
      exact (Bool.and_eq_true ..|>.mp hw).2
    rcases List.mem_cons.mp hq with rfl | hm
    · exact Or.inl rfl
    · obtain ⟨c, hc, hext⟩ := preorderL_ext p cs hwcs q hm
      exact extOf_trans (extOf_join c.entryName hp) hext

theorem preorderL_ext (d : String) (cs : List FSEntry) (hw : wfListB cs = true) :
    ∀ q ∈ preorderL d cs, ∃ c ∈ cs, extOf (joinRel d c.entryName) q := by
  match cs with
  | [] =>
    intro q hq
    simp [preorderL] at hq
  | c :: rest =>
    intro q hq
    have hdec : wfB c = true ∧ wfListB rest = true := by
      unfold wfListB at hw
      have h := Bool.and_eq_true ..|>.mp hw
      exact ⟨(Bool.and_eq_true ..|>.mp h.1).1, h.2⟩
    unfold preorderL at hq
    rcases List.mem_append.mp hq with hb | hr
    · exact ⟨c, List.mem_cons_self _ _,
        preorderP_ext (joinRel d c.entryName) c
          (joinRel_ne_dot d (wfB_name hdec.1)) hdec.1 q hb⟩
    · obtain ⟨c2, hc2, hext⟩ := preorderL_ext d rest hdec.2 q hr
      exact ⟨c2, List.mem_cons_of_mem _ hc2, hext⟩

end

mutual

theorem preorderP_nodup (p : String) (e : FSEntry) (hp : p ≠ ".") (hw : wfB e = true) :
    (preorderP p e).Nodup := by
  match e with
  | .file n m => simp [preorderP]
  | .errEntry n fe => simp [preorderP]
  | .dir n m cs =>
    have hwcs : wfListB cs = true := by
      unfold wfB at hw
      exact (Bool.and_eq_true ..|>.mp hw).2
    refine List.nodup_cons.mpr ⟨?_, preorderL_nodup p cs hwcs⟩
    intro hq
    obtain ⟨c, hc, hext⟩ := preorderL_ext p cs hwcs p hq
    have hpre := extOf_pre hext
    have hlen := hpre.length_le
    rw [joinRel_data, if_neg hp] at hlen
    simp only [List.length_append, List.length_cons, List.length_nil] at hlen
    omega

theorem preorderL_nodup (d : String) (cs : List FSEntry) (hw : wfListB cs = true) :
    (preorderL d cs).Nodup := by
  match cs with
  | [] => simp [preorderL]
  | c :: rest =>
    have hdec : wfB c = true ∧ (∀ x ∈ rest, x.entryName ≠ c.entryName) ∧
        wfListB rest = true := by
      unfold wfListB at hw
      have h := Bool.and_eq_true ..|>.mp hw
      have h1 := Bool.and_eq_true ..|>.mp h.1
      refine ⟨h1.1, ?_, h.2⟩
      intro x hx
      have := List.all_eq_true.mp h1.2 x hx
      exact bne_iff_ne.mp this
    show (preorderP (joinRel d c.entryName) c ++ preorderL d rest).Nodup
    refine List.Nodup.append
      (preorderP_nodup (joinRel d c.entryName) c
        (joinRel_ne_dot d (wfB_name hdec.1)) hdec.1)
      (preorderL_nodup d rest hdec.2.2) ?_
    intro q hqb hqr
    obtain ⟨c2, hc2, hext2⟩ := preorderL_ext d rest hdec.2.2 q hqr
    have hext1 := preorderP_ext (joinRel d c.entryName) c
      (joinRel_ne_dot d (wfB_name hdec.1)) hdec.1 q hqb
    have hwc2 : wfB c2 = true := ((wfListB_iff rest).mp hdec.2.2).2 c2 hc2
    exact extOf_disjoint (wfB_name hdec.1) (wfB_name hwc2)
      (hdec.2.1 c2 hc2).symm hext1 hext2

end

/-- The plain walk, starting from the root invocation with the matcher
already resolved to `none`. -/
theorem Walk_plain_aux (opt : Option WalkOpt) (pfx : List String) (cs : List FSEntry)
    (hopt : plainOpt opt) (he : errFreeL (sortByName (sortTreeL cs)) = true)
    (hw : wfListB (sortByName (sortTreeL cs)) = true) :
    (walkEntry ⟨none, opt, none, pfx⟩ "." (sortTree (.dir "" ⟨0, 0, 0⟩ cs))
        initState []).1 = none ∧
    (walkEntry ⟨none, opt, none, pfx⟩ "." (sortTree (.dir "" ⟨0, 0, 0⟩ cs))
        initState []).2.1.emitted.map (fun s => s.Path) =
      preorderL "." (sortByName (sortTreeL cs)) := by
  unfold walkEntry
  rw [walkFn_root]
  simp only [sortTree]
  have hmain := walkList_plain ⟨none, opt, none, pfx⟩ rfl hopt rfl "."
    (sortByName (sortTreeL cs)) initState
    ([] ++ [⟨".", (FSEntry.dir "" ⟨0, 0, 0⟩ (sortByName (sortTreeL cs))).isDirE, none⟩])
    he hw
  refine ⟨hmain.1, ?_⟩
  rw [hmain.2]
  simp [initState]

/-- C1: the plain-configuration walk (walker.go lines 46-176 with no
include patterns, no exclude patterns and no accept hook).  Over an
error-free well-formed tree the walk finishes without error and
delivers exactly one record per filesystem entry strictly under the
root (the root itself excluded), each entry exactly once, in lexical
pre-order of paths. -/
theorem plain_walk_preorder (opt : Option WalkOpt) (cs : List FSEntry)
    (hopt : plainOpt opt) (he : errFreeL cs = true) (hw : wfListB cs = true) :
    walkErr (Walk none opt cs) = none ∧
    walkEmittedPaths (Walk none opt cs) = preorderRoot cs ∧
    (walkEmittedPaths (Walk none opt cs)).Nodup := by
  have hsw : wfListB (sortByName (sortTreeL cs)) = true :=
    wfListB_of_perm (sortByName_perm _).symm (wfListB_sortTreeL cs hw)
  have hse : errFreeL (sortByName (sortTreeL cs)) = true := by
    rw [errFreeL_perm (sortByName_perm _), errFreeL_sortTreeL]
    exact he
  have hnodup := preorderL_nodup "." (sortByName (sortTreeL cs)) hsw
  unfold Walk
  cases opt with
  | none =>
    dsimp only
    have haux := Walk_plain_aux none [] cs True.intro hse hsw
    refine ⟨haux.1, haux.2, ?_⟩
    show (List.map (fun s => s.Path) (walkEntry ⟨none, none, none, []⟩ "."
      (sortTree (.dir "" ⟨0, 0, 0⟩ cs)) initState []).2.1.emitted).Nodup
    rw [haux.2]
    exact hnodup
  | some o =>
    obtain ⟨hip, hep, hmap⟩ := hopt
    dsimp only
    rw [hip, hep]
    dsimp only
    have haux := Walk_plain_aux (some o) [] cs ⟨hip, hep, hmap⟩ hse hsw
    refine ⟨haux.1, haux.2, ?_⟩
    show (List.map (fun s => s.Path) (walkEntry ⟨none, some o, none, []⟩ "."
      (sortTree (.dir "" ⟨0, 0, 0⟩ cs)) initState []).2.1.emitted).Nodup
    rw [haux.2]
    exact hnodup

theorem plain_walk_preorder_witness :
    walkErr (Walk none none exTreeAB) = none ∧
    walkEmittedPaths (Walk none none exTreeAB) = preorderRoot exTreeAB ∧
    (walkEmittedPaths (Walk none none exTreeAB)).Nodup :=
  plain_walk_preorder none exTreeAB True.intro (by decide) (by decide)
